import Mathlib

/-!
Verification of the simpgraph data model (src/simpgraph/simpgraph.py).

The graph store is a record of the five object variables of the Python
class SimpGraph.  Python dicts are modelled as Finmap, Python sets as
Finset, Python int as Int and Python str labels as String.  Each mutating
method is a function from the receiver state to a pair of an optional
raised exception and the state the object is left in (a Python raise
leaves the object in whatever state the method reached, so errors carry
the state as well).  Methods that only query return an Except.
-/

set_option autoImplicit false

/-- Kinds of Python exceptions raised by the source. -/
inductive PyErr where
  | typeError : PyErr
  | valueError : String → PyErr
  | keyError : PyErr
  | assertionError : PyErr
  | exception : String → PyErr
deriving DecidableEq

/-- Dictionary mapping each vertex to the set of adjacent vertices. -/
abbrev AdjDict := Finmap (fun _ : ℤ => Finset ℤ)

/-- Dictionary mapping a vertex to its label. -/
abbrev VLabelDict := Finmap (fun _ : ℤ => String)

/-- Dictionary mapping an edge to its label. -/
abbrev ELabelDict := Finmap (fun _ : ℤ × ℤ => String)

/-- State of a SimpGraph object: its five object variables. -/
structure SimpGraph where
  vertex_set : Finset ℤ
  edge_set : Finset (ℤ × ℤ)
  adj_dict : AdjDict
  vertex_label_dict : VLabelDict
  edge_label_dict : ELabelDict
deriving DecidableEq

/-- State produced by SimpGraph.__init__: every container empty. -/
def initGraph : SimpGraph := ⟨∅, ∅, ∅, ∅, ∅⟩

/-- Result of a mutating method: the exception raised, if any, and the
state the object is left in. -/
abbrev MRes := Option PyErr × SimpGraph

/-- SimpGraph.clear: clears all object variables, giving the empty graph. -/
def clear (_g : SimpGraph) : SimpGraph := initGraph

/-- Value stored in the adjacency dictionary under a key, empty when the
key is absent (convenience accessor for stating properties). -/
def adjGet (d : AdjDict) (u : ℤ) : Finset ℤ := (d.lookup u).getD ∅

/-- Models the Python statement d[u].add(v) on the adjacency dictionary:
none (a KeyError) when u is not a key. -/
def adjAdd (d : AdjDict) (u v : ℤ) : Option AdjDict :=
  match d.lookup u with
  | none => none
  | some s => some (d.insert u (insert v s))

/-- Models the Python statement d[u].remove(v) on the adjacency
dictionary: none (a KeyError) when u is not a key or v is not in the
stored set. -/
def adjRemove (d : AdjDict) (u v : ℤ) : Option AdjDict :=
  match d.lookup u with
  | none => none
  | some s => if v ∈ s then some (d.insert u (s.erase v)) else none

/-- Sorted list of the elements of a finite set, computed with insertion
sort so that it evaluates by kernel reduction (Python iterates a set in
an unspecified order; a sorted snapshot is one definite choice). -/
def finSortedList {α : Type} (r : α → α → Prop) [DecidableRel r]
    [IsTrans α r] [IsAntisymm α r] [IsTotal α r] (s : Finset α) : List α :=
  Quot.liftOn s.val (List.insertionSort r) (fun l1 l2 h =>
    List.eq_of_perm_of_sorted
      ((List.perm_insertionSort r l1).trans (Quotient.exact (Quot.sound h) |>.trans
        (List.perm_insertionSort r l2).symm))
      (List.sorted_insertionSort r l1) (List.sorted_insertionSort r l2))

/-- Effect of the Python fragment if label is not None then
vertex_label_dict[u] = label. -/
def withVLabel (g : SimpGraph) (u : ℤ) (label : Option String) : SimpGraph :=
  match label with
  | some l => { g with vertex_label_dict := g.vertex_label_dict.insert u l }
  | none => g

/-- Effect of the Python fragment if label is not None then
edge_label_dict[p] = label. -/
def withELabel (g : SimpGraph) (p : ℤ × ℤ) (label : Option String) : SimpGraph :=
  match label with
  | some l => { g with edge_label_dict := g.edge_label_dict.insert p l }
  | none => g

/-- SimpGraph.add_vertex.  The Python type(u) is not int check cannot
fire here because the argument is an Int by typing; the u <= 0 check
raises ValueError; re-adding an existing vertex only optionally
overwrites the label; otherwise the source asserts u is not an adj_dict
key, then inserts an empty adjacency set, adds u to the vertex set and
optionally sets the label. -/
def add_vertex (g : SimpGraph) (u : ℤ) (label : Option String) : MRes :=
  if u ≤ 0 then (some (.valueError "vertex index must be positive."), g)
  else if u ∈ g.vertex_set then (none, withVLabel g u label)
  else if u ∈ g.adj_dict then (some .assertionError, g)
  else
    (none, withVLabel
      { g with adj_dict := g.adj_dict.insert u ∅,
               vertex_set := insert u g.vertex_set } u label)

/-- Canonical form of an edge, as computed by the source's swap
if u > v then u,v = v,u. -/
def canon (u v : ℤ) : ℤ × ℤ := if u > v then (v, u) else (u, v)

/-- SimpGraph.add_edge: validates positivity, rejects loops, swaps to the
sorted tuple, no-ops (up to label overwrite) on a present edge, and
otherwise adds both endpoints via add_vertex, updates both adjacency
sets and inserts the edge, optionally labelling it. -/
def add_edge (g : SimpGraph) (u v : ℤ) (label : Option String) : MRes :=
  if u ≤ 0 ∨ v ≤ 0 then (some (.valueError "vertex index must be positive."), g)
  else if u = v then (some (.exception "cannot add loop."), g)
  else
    let p : ℤ × ℤ := canon u v
    if p ∈ g.edge_set then (none, withELabel g p label)
    else
      match add_vertex g p.1 none with
      | (some e, g1) => (some e, g1)
      | (none, g1) =>
        match add_vertex g1 p.2 none with
        | (some e, g2) => (some e, g2)
        | (none, g2) =>
          match adjAdd g2.adj_dict p.1 p.2 with
          | none => (some .keyError, g2)
          | some d1 =>
            let g3 : SimpGraph := { g2 with adj_dict := d1 }
            match adjAdd g3.adj_dict p.2 p.1 with
            | none => (some .keyError, g3)
            | some d2 =>
              (none, withELabel
                { g3 with adj_dict := d2,
                          edge_set := insert p g3.edge_set } p label)

/-- SimpGraph.discard_edge: swaps to the sorted tuple, no-ops when the
edge is absent, otherwise removes the edge, pops its label (with default,
so no error) and removes each endpoint from the other's adjacency set. -/
def discard_edge (g : SimpGraph) (u v : ℤ) : MRes :=
  let p : ℤ × ℤ := canon u v
  if p ∉ g.edge_set then (none, g)
  else
    let g1 : SimpGraph :=
      { g with edge_set := g.edge_set.erase p,
               edge_label_dict := g.edge_label_dict.erase p }
    match adjRemove g1.adj_dict p.1 p.2 with
    | none => (some .keyError, g1)
    | some d1 =>
      let g2 : SimpGraph := { g1 with adj_dict := d1 }
      match adjRemove g2.adj_dict p.2 p.1 with
      | none => (some .keyError, g2)
      | some d2 => (none, { g2 with adj_dict := d2 })

/-- Loop body of SimpGraph.discard_vertex: discards the edge u,v for each
v of the (snapshot) neighbor list in turn, stopping at a raise. -/
def discardEdges (u : ℤ) : SimpGraph → List ℤ → MRes
  | g, [] => (none, g)
  | g, v :: vs =>
    match discard_edge g u v with
    | (none, g1) => discardEdges u g1 vs
    | (some e, g1) => (some e, g1)

/-- SimpGraph.discard_vertex: no-op when u is absent; otherwise iterates
discard_edge over a snapshot of the adjacency set taken before mutation
(the source materializes tuple of the dict entry; the snapshot is taken
here in sorted order, Python set iteration order being unspecified), then
removes u from the vertex set, pops its label with default, and pops its
adjacency entry (without default, so a KeyError if it were absent). -/
def discard_vertex (g : SimpGraph) (u : ℤ) : MRes :=
  if u ∉ g.vertex_set then (none, g)
  else
    match g.adj_dict.lookup u with
    | none => (some .keyError, g)
    | some nbrs =>
      match discardEdges u g (finSortedList (· ≤ ·) nbrs) with
      | (some e, g1) => (some e, g1)
      | (none, g1) =>
        if u ∈ g1.vertex_set then
          let g2 : SimpGraph :=
            { g1 with vertex_set := g1.vertex_set.erase u,
                      vertex_label_dict := g1.vertex_label_dict.erase u }
          if u ∈ g2.adj_dict then (none, { g2 with adj_dict := g2.adj_dict.erase u })
          else (some .keyError, g2)
        else (some .keyError, g1)

/-- SimpGraph.num_vertices. -/
def num_vertices (g : SimpGraph) : ℕ := g.vertex_set.card

/-- SimpGraph.num_edges. -/
def num_edges (g : SimpGraph) : ℕ := g.edge_set.card

/-- SimpGraph.max_vertex: Python max of the vertex set; max of an empty
set raises ValueError.  A pure query: the receiver state is untouched. -/
def max_vertex (g : SimpGraph) : Except PyErr ℤ :=
  if h : g.vertex_set.Nonempty then .ok (g.vertex_set.max' h)
  else .error (.valueError "max() arg is an empty sequence")

/-- SimpGraph.all_vertices returns tuple of the vertex set in unspecified
order; the snapshot is modelled as the underlying finite set. -/
def all_vertices (g : SimpGraph) : Finset ℤ := g.vertex_set

/-- SimpGraph.all_edges returns tuple of the edge set in unspecified
order; the snapshot is modelled as the underlying finite set. -/
def all_edges (g : SimpGraph) : Finset (ℤ × ℤ) := g.edge_set

/-- SimpGraph.adj_vertices: raises on an unknown vertex, otherwise the
adjacency dictionary entry (a KeyError if the entry were missing). -/
def adj_vertices (g : SimpGraph) (u : ℤ) : Except PyErr (Finset ℤ) :=
  if u ∉ g.vertex_set then .error (.exception ("Unknown vertex: " ++ toString u))
  else
    match g.adj_dict.lookup u with
    | none => .error .keyError
    | some s => .ok s

/-- SimpGraph.vertex_label: raises on an unknown vertex, otherwise the
label dictionary entry or None. -/
def vertex_label (g : SimpGraph) (u : ℤ) : Except PyErr (Option String) :=
  if u ∉ g.vertex_set then .error (.exception ("Unknown vertex: " ++ toString u))
  else .ok (g.vertex_label_dict.lookup u)

/-- SimpGraph.edge_label: swaps to the sorted tuple, raises on an unknown
edge, otherwise the label dictionary entry or None. -/
def edge_label (g : SimpGraph) (u v : ℤ) : Except PyErr (Option String) :=
  let p : ℤ × ℤ := canon u v
  if p ∉ g.edge_set then
    .error (.exception ("Unknown edge: " ++ toString p.1 ++ " " ++ toString p.2))
  else .ok (g.edge_label_dict.lookup p)

/-- SimpGraph.__eq__: vertex sets and edge sets agree; labels are not
compared. -/
def graphEq (g1 g2 : SimpGraph) : Prop :=
  g1.vertex_set = all_vertices g2 ∧ g1.edge_set = all_edges g2

instance (g1 g2 : SimpGraph) : Decidable (graphEq g1 g2) := by
  unfold graphEq; infer_instance

/-- Data-model invariants of the store (spec section 3): edges reference
present vertices only and are held in canonical sorted form (hence no
self-loops, and each unordered pair at most once since edge_set is a
set); the adjacency dictionary has exactly the present vertices as keys
and mirrors the edge set symmetrically; labels exist only for present
entities; vertex identifiers are strictly positive. -/
structure Invariant (g : SimpGraph) : Prop where
  edge_mem : ∀ e ∈ g.edge_set, e.1 ∈ g.vertex_set ∧ e.2 ∈ g.vertex_set
  edge_lt : ∀ e ∈ g.edge_set, e.1 < e.2
  adj_keys : ∀ u : ℤ, u ∈ g.adj_dict ↔ u ∈ g.vertex_set
  adj_iff : ∀ u v : ℤ, v ∈ adjGet g.adj_dict u ↔ (min u v, max u v) ∈ g.edge_set
  vlabel_mem : ∀ u : ℤ, u ∈ g.vertex_label_dict → u ∈ g.vertex_set
  elabel_mem : ∀ e : ℤ × ℤ, e ∈ g.edge_label_dict → e ∈ g.edge_set
  vpos : ∀ u ∈ g.vertex_set, 0 < u

/-- Canonical edge incident to u through neighbor v. -/
def inc (u v : ℤ) : ℤ × ℤ := (min u v, max u v)

/-- Bounded, decidable reformulation of the data-model invariants. -/
def InvariantB (g : SimpGraph) : Prop :=
  (∀ e ∈ g.edge_set, e.1 ∈ g.vertex_set ∧ e.2 ∈ g.vertex_set ∧ e.1 < e.2) ∧
  g.adj_dict.keys = g.vertex_set ∧
  (∀ u ∈ g.vertex_set, 0 < u ∧ ∀ v ∈ adjGet g.adj_dict u, (min u v, max u v) ∈ g.edge_set) ∧
  (∀ e ∈ g.edge_set, e.2 ∈ adjGet g.adj_dict e.1 ∧ e.1 ∈ adjGet g.adj_dict e.2) ∧
  (∀ u ∈ g.vertex_label_dict.keys, u ∈ g.vertex_set) ∧
  (∀ e ∈ g.edge_label_dict.keys, e ∈ g.edge_set)

instance (g : SimpGraph) : Decidable (InvariantB g) := by
  unfold InvariantB
  infer_instance

/-- Concrete invariant state used by several witnesses: vertices 1, 2, 3
with labelled edge 1-2 and unlabelled edge 2-3, vertex 3 labelled. -/
def gW : SimpGraph :=
  (add_edge (add_vertex (add_edge initGraph 1 2 (some "a")).2 3 (some "b")).2 2 3 none).2

/-- Models Python str.split with the single-character separator used by
the reader: splits at every occurrence of the separator, keeping empty
pieces, and yields one (possibly empty) piece even for the empty string.
A Python str value is a sequence of code points, modelled as List Char. -/
def splitChar (c : Char) : List Char → List (List Char)
  | [] => [[]]
  | a :: rest =>
    if a = c then [] :: splitChar c rest
    else
      match splitChar c rest with
      | [] => [[a]]
      | t :: ts => (a :: t) :: ts

/-- Characters removed by Python str.strip: ASCII whitespace. -/
def isPySpace (c : Char) : Bool :=
  c == ' ' || c == '\t' || c == '\n' || c == '\r' || c == '\x0b' || c == '\x0c'

/-- Models Python str.strip: drops whitespace from both ends. -/
def pyStrip (s : List Char) : List Char :=
  ((s.dropWhile isPySpace).reverse.dropWhile isPySpace).reverse

/-- Base-10 value of a token: some value for a nonempty all-digit list,
none otherwise. -/
def digitsVal (cs : List Char) : Option ℕ :=
  if cs ≠ [] ∧ cs.all Char.isDigit then
    some (cs.foldl (fun n c => n * 10 + (c.toNat - 48)) 0)
  else none

/-- Models the Python built-in int applied to a str: optional surrounding
whitespace, an optional sign, then a nonempty digit string; anything else
raises ValueError.  (Python additionally accepts underscores between
digits and non-ASCII decimal digits; the reader never meets those.) -/
def pyInt (s : List Char) : Except PyErr ℤ :=
  let t := pyStrip s
  if t.headD ' ' = '-' then
    match digitsVal t.tail with
    | some n => .ok (-(n : ℤ))
    | none => .error (.valueError "invalid literal for int() with base 10")
  else if t.headD ' ' = '+' then
    match digitsVal t.tail with
    | some n => .ok ((n : ℤ))
    | none => .error (.valueError "invalid literal for int() with base 10")
  else
    match digitsVal t with
    | some n => .ok ((n : ℤ))
    | none => .error (.valueError "invalid literal for int() with base 10")

/-- One iteration of the reader loop of SimpGraph.read for format DIMACS:
strip the line, split on single spaces, process an n record and then an e
record (two separate if statements in the source; a raise propagates),
and ignore any other line. -/
def processLine (g : SimpGraph) (line : List Char) : MRes :=
  let res := splitChar ' ' (pyStrip line)
  let step1 : MRes :=
    if 0 < res.length ∧ res.getD 0 [] = ['n'] then
      if res.length < 2 then
        (some (.exception ("Unexpected format: " ++ String.mk line)), g)
      else
        match pyInt (res.getD 1 []) with
        | .error e => (some e, g)
        | .ok k => add_vertex g k none
    else (none, g)
  match step1 with
  | (some e, g1) => (some e, g1)
  | (none, g1) =>
    if 0 < res.length ∧ res.getD 0 [] = ['e'] then
      if res.length < 3 then
        (some (.exception ("Unexpected format: " ++ String.mk line)), g1)
      else
        match pyInt (res.getD 1 []) with
        | .error e => (some e, g1)
        | .ok k1 =>
          match pyInt (res.getD 2 []) with
          | .error e => (some e, g1)
          | .ok k2 => add_edge g1 k1 k2 none
    else (none, g1)

/-- The reader loop over the lines of the source text, threading the graph
under construction and propagating a raise. -/
def readLines (g : SimpGraph) : List (List Char) → MRes
  | [] => (none, g)
  | line :: rest =>
    match processLine g line with
    | (none, g1) => readLines g1 rest
    | (some e, g1) => (some e, g1)

/-- Models SimpGraph.read.  Opening the file is modelled away: the text
content is passed directly (the missing-file check raises before any graph
state exists).  An unrecognized format raises; for DIMACS the content is
split on newlines and each line processed in turn; a raise from any line
propagates out of read and the locally built graph is discarded. -/
def SimpGraph.read (content : List Char) (format : Option String) : Except PyErr SimpGraph :=
  if format ≠ some "DIMACS" then .error (.exception "Unexpected format type")
  else
    match readLines initGraph (splitChar '\n' content) with
    | (none, g) => .ok g
    | (some e, _) => .error e

/-- Helper for the decimal digits of a natural number: structural
recursion on a fuel bound so that it evaluates by kernel reduction. -/
def natDigitsAux : ℕ → ℕ → List Char → List Char
  | 0, _, acc => acc
  | fuel + 1, n, acc =>
    if n < 10 then Nat.digitChar n :: acc
    else natDigitsAux fuel (n / 10) (Nat.digitChar (n % 10) :: acc)

/-- Decimal digit characters of a natural number, most significant first
(Nat.digitChar yields the ASCII digit for values below ten). -/
def natDigits (n : ℕ) : List Char := natDigitsAux (n + 1) n []

/-- Recursive restatement of natDigits, convenient for induction. -/
def natDigitsW (n : ℕ) : List Char :=
  if _h : n < 10 then [Nat.digitChar n]
  else natDigitsW (n / 10) ++ [Nat.digitChar (n % 10)]
decreasing_by exact Nat.div_lt_self (by omega) (by omega)

/-- Decimal string of a Python int, as produced by str. -/
def intRepr (i : ℤ) : List Char :=
  if i < 0 then '-' :: natDigits i.natAbs else natDigits i.toNat

/-- Joins lines with a separator character, the inverse of splitChar. -/
def joinWith (c : Char) : List (List Char) → List Char
  | [] => []
  | [l] => l
  | l :: ls => l ++ c :: joinWith c ls

/-- Linear order on canonical edge pairs used to emit edges in a definite
order. -/
def edgeLE (a b : ℤ × ℤ) : Prop := a.1 < b.1 ∨ (a.1 = b.1 ∧ a.2 ≤ b.2)

instance : DecidableRel edgeLE := fun a b => by unfold edgeLE; infer_instance

instance : IsTrans (ℤ × ℤ) edgeLE :=
  ⟨by intro a b c hab hbc; unfold edgeLE at *; omega⟩

instance : IsAntisymm (ℤ × ℤ) edgeLE := by
  refine ⟨fun a b hab hba => ?_⟩
  unfold edgeLE at hab hba
  have h1 : a.1 = b.1 := by omega
  have h2 : a.2 = b.2 := by omega
  exact Prod.ext h1 h2

instance : IsTotal (ℤ × ℤ) edgeLE :=
  ⟨by intro a b; unfold edgeLE; omega⟩

/-- Line declaring a vertex in the text format. -/
def vline (u : ℤ) : List Char := 'n' :: ' ' :: intRepr u

/-- Line declaring an edge in the text format. -/
def eline (e : ℤ × ℤ) : List Char := 'e' :: ' ' :: (intRepr e.1 ++ ' ' :: intRepr e.2)

/-- Modelled from the spec: the repository ships no writer, and the round
trip property of spec section 8 writes the vertices of a graph as n id
lines and its canonical edges as e u v lines of the text format.
Vertices and edges are emitted here in sorted order; the reader does not
depend on the order. -/
def writeDIMACS (g : SimpGraph) : List Char :=
  joinWith '\n'
    ((finSortedList (· ≤ ·) g.vertex_set).map vline ++
     (finSortedList edgeLE g.edge_set).map eline)

lemma canon_eq (u v : ℤ) : canon u v = (min u v, max u v) := by
  unfold canon
  rcases lt_or_ge v u with h | h
  · rw [if_pos h, min_eq_right h.le, max_eq_left h.le]
  · rw [if_neg (not_lt.mpr h), min_eq_left h, max_eq_right h]

lemma canon_symm (u v : ℤ) : canon u v = canon v u := by
  rw [canon_eq, canon_eq, min_comm, max_comm]

lemma adjGet_insert (d : AdjDict) (u : ℤ) (s : Finset ℤ) (w : ℤ) :
    adjGet (d.insert u s) w = if w = u then s else adjGet d w := by
  unfold adjGet
  by_cases h : w = u
  · subst h; rw [Finmap.lookup_insert]; simp
  · rw [Finmap.lookup_insert_of_ne _ h]; simp [h]

lemma adjGet_erase (d : AdjDict) (u : ℤ) (w : ℤ) :
    adjGet (d.erase u) w = if w = u then ∅ else adjGet d w := by
  unfold adjGet
  by_cases h : w = u
  · subst h; rw [Finmap.lookup_erase]; simp
  · rw [Finmap.lookup_erase_ne h]; simp [h]

lemma adjGet_of_mem {d : AdjDict} {u : ℤ} (h : u ∈ d) :
    d.lookup u = some (adjGet d u) := by
  rcases Finmap.mem_iff.mp h with ⟨s, hs⟩
  unfold adjGet
  rw [hs]
  rfl

lemma adjAdd_spec {d : AdjDict} {u : ℤ} (v : ℤ) (h : u ∈ d) :
    adjAdd d u v = some (d.insert u (insert v (adjGet d u))) := by
  unfold adjAdd
  rw [adjGet_of_mem h]

lemma adjRemove_spec {d : AdjDict} {u v : ℤ} (hu : u ∈ d) (hv : v ∈ adjGet d u) :
    adjRemove d u v = some (d.insert u ((adjGet d u).erase v)) := by
  unfold adjRemove
  rw [adjGet_of_mem hu]
  simp [hv]

lemma mem_insert_adj (d : AdjDict) (u : ℤ) (s : Finset ℤ) (w : ℤ) :
    w ∈ d.insert u s ↔ w = u ∨ w ∈ d := Finmap.mem_insert

lemma invariant_init : Invariant initGraph := by
  constructor <;> intro u <;> simp [initGraph, adjGet, Finmap.not_mem_empty]

/-- Invariant states satisfy the claimed adjacency symmetry chain. -/
lemma Invariant.adj_symm {g : SimpGraph} (hg : Invariant g) (u v : ℤ) :
    (v ∈ adjGet g.adj_dict u ↔ u ∈ adjGet g.adj_dict v) ∧
    (v ∈ adjGet g.adj_dict u ↔ (min u v, max u v) ∈ g.edge_set) := by
  constructor
  · rw [hg.adj_iff u v, hg.adj_iff v u, min_comm, max_comm]
  · exact hg.adj_iff u v

/-- Result of add_vertex with no label on a positive vertex, uniformly in
whether the vertex is already present. -/
lemma add_vertex_none_spec {g : SimpGraph} (hg : Invariant g) {u : ℤ} (hu : 0 < u) :
    ∃ g1, add_vertex g u none = (none, g1) ∧ Invariant g1 ∧
      g1.vertex_set = insert u g.vertex_set ∧
      g1.edge_set = g.edge_set ∧
      g1.vertex_label_dict = g.vertex_label_dict ∧
      g1.edge_label_dict = g.edge_label_dict ∧
      (∀ w, w ∈ g1.adj_dict ↔ w = u ∨ w ∈ g.adj_dict) ∧
      (∀ w, adjGet g1.adj_dict w = adjGet g.adj_dict w) := by
  by_cases hmem : u ∈ g.vertex_set
  · refine ⟨g, ?_, hg, ?_, rfl, rfl, rfl, ?_, ?_⟩
    · unfold add_vertex
      rw [if_neg (by omega), if_pos hmem]
      rfl
    · rw [Finset.insert_eq_self.mpr hmem]
    · intro w
      constructor
      · intro h; right; exact h
      · rintro (rfl | h)
        · exact (hg.adj_keys w).mpr hmem
        · exact h
    · intro w; rfl
  · have hadj : u ∉ g.adj_dict := fun h => hmem ((hg.adj_keys u).mp h)
    refine ⟨{ g with adj_dict := g.adj_dict.insert u ∅, vertex_set := insert u g.vertex_set }, ?_, ?_, rfl, rfl, rfl, rfl, ?_, ?_⟩
    · unfold add_vertex
      rw [if_neg (by omega), if_neg hmem, if_neg hadj]
      rfl
    · constructor
      · intro e he
        have h1 := hg.edge_mem e he
        exact ⟨Finset.mem_insert_of_mem h1.1, Finset.mem_insert_of_mem h1.2⟩
      · exact hg.edge_lt
      · intro w
        rw [mem_insert_adj, hg.adj_keys w, Finset.mem_insert]
      · intro w x
        rw [adjGet_insert]
        by_cases hw : w = u
        · subst hw
          rw [if_pos rfl]
          simp only [Finset.not_mem_empty, false_iff]
          intro hmem2
          have h1 := hg.edge_mem _ hmem2
          rcases le_or_lt w x with h | h
          · rw [min_eq_left h] at h1; exact hmem h1.1
          · rw [max_eq_left h.le] at h1; exact hmem h1.2
        · rw [if_neg hw]; exact hg.adj_iff w x
      · intro w hw
        exact Finset.mem_insert_of_mem (hg.vlabel_mem w hw)
      · exact hg.elabel_mem
      · intro w hw
        rcases Finset.mem_insert.mp hw with rfl | h
        · exact hu
        · exact hg.vpos w h
    · intro w; rw [mem_insert_adj]
    · intro w
      rw [adjGet_insert]
      by_cases hw : w = u
      · subst hw
        rw [if_pos rfl]
        unfold adjGet
        rw [Finmap.lookup_eq_none.mpr hadj]
        rfl
      · rw [if_neg hw]

@[simp] lemma withVLabel_vertex_set (g : SimpGraph) (u : ℤ) (lab : Option String) :
    (withVLabel g u lab).vertex_set = g.vertex_set := by cases lab <;> rfl

@[simp] lemma withVLabel_edge_set (g : SimpGraph) (u : ℤ) (lab : Option String) :
    (withVLabel g u lab).edge_set = g.edge_set := by cases lab <;> rfl

@[simp] lemma withVLabel_adj_dict (g : SimpGraph) (u : ℤ) (lab : Option String) :
    (withVLabel g u lab).adj_dict = g.adj_dict := by cases lab <;> rfl

@[simp] lemma withVLabel_edge_label_dict (g : SimpGraph) (u : ℤ) (lab : Option String) :
    (withVLabel g u lab).edge_label_dict = g.edge_label_dict := by cases lab <;> rfl

lemma withVLabel_lookup (g : SimpGraph) (u : ℤ) (lab : Option String) (w : ℤ) :
    (withVLabel g u lab).vertex_label_dict.lookup w =
      if w = u ∧ lab ≠ none then lab else g.vertex_label_dict.lookup w := by
  cases lab with
  | none => rw [if_neg (by simp)]; rfl
  | some l =>
    by_cases hw : w = u
    · subst hw
      rw [if_pos (by simp)]
      exact Finmap.lookup_insert _
    · rw [if_neg (by simp [hw])]
      exact Finmap.lookup_insert_of_ne _ hw

lemma withVLabel_mem {g : SimpGraph} {u : ℤ} {lab : Option String} {w : ℤ}
    (h : w ∈ (withVLabel g u lab).vertex_label_dict) :
    w = u ∨ w ∈ g.vertex_label_dict := by
  cases lab with
  | none => exact Or.inr h
  | some l => exact Finmap.mem_insert.mp h

@[simp] lemma withELabel_vertex_set (g : SimpGraph) (p : ℤ × ℤ) (lab : Option String) :
    (withELabel g p lab).vertex_set = g.vertex_set := by cases lab <;> rfl

@[simp] lemma withELabel_edge_set (g : SimpGraph) (p : ℤ × ℤ) (lab : Option String) :
    (withELabel g p lab).edge_set = g.edge_set := by cases lab <;> rfl

@[simp] lemma withELabel_adj_dict (g : SimpGraph) (p : ℤ × ℤ) (lab : Option String) :
    (withELabel g p lab).adj_dict = g.adj_dict := by cases lab <;> rfl

@[simp] lemma withELabel_vertex_label_dict (g : SimpGraph) (p : ℤ × ℤ) (lab : Option String) :
    (withELabel g p lab).vertex_label_dict = g.vertex_label_dict := by cases lab <;> rfl

lemma withELabel_lookup (g : SimpGraph) (p : ℤ × ℤ) (lab : Option String) (e : ℤ × ℤ) :
    (withELabel g p lab).edge_label_dict.lookup e =
      if e = p ∧ lab ≠ none then lab else g.edge_label_dict.lookup e := by
  cases lab with
  | none => rw [if_neg (by simp)]; rfl
  | some l =>
    by_cases he : e = p
    · subst he
      rw [if_pos (by simp)]
      exact Finmap.lookup_insert _
    · rw [if_neg (by simp [he])]
      exact Finmap.lookup_insert_of_ne _ he

lemma withELabel_mem {g : SimpGraph} {p : ℤ × ℤ} {lab : Option String} {e : ℤ × ℤ}
    (h : e ∈ (withELabel g p lab).edge_label_dict) :
    e = p ∨ e ∈ g.edge_label_dict := by
  cases lab with
  | none => exact Or.inr h
  | some l => exact Finmap.mem_insert.mp h

lemma invariant_withELabel {g : SimpGraph} (hg : Invariant g) {p : ℤ × ℤ}
    (hp : p ∈ g.edge_set) (lab : Option String) : Invariant (withELabel g p lab) := by
  refine ⟨?_, ?_, ?_, ?_, ?_, ?_, ?_⟩ <;> simp only [withELabel_vertex_set,
    withELabel_edge_set, withELabel_adj_dict, withELabel_vertex_label_dict]
  · exact hg.edge_mem
  · exact hg.edge_lt
  · exact hg.adj_keys
  · exact hg.adj_iff
  · exact hg.vlabel_mem
  · intro e he
    rcases withELabel_mem he with rfl | h
    · exact hp
    · exact hg.elabel_mem e h
  · exact hg.vpos

lemma canon_of_lt {u v : ℤ} (h : u < v) : canon u v = (u, v) := by
  unfold canon
  rw [if_neg (by omega)]

lemma add_edge_symm (g : SimpGraph) (u v : ℤ) (lab : Option String) :
    add_edge g u v lab = add_edge g v u lab := by
  unfold add_edge
  rw [canon_symm u v]
  by_cases h1 : u ≤ 0 ∨ v ≤ 0
  · rw [if_pos h1, if_pos (Or.symm h1)]
  · rw [if_neg h1, if_neg (fun h => h1 (Or.symm h))]
    by_cases h2 : u = v
    · rw [if_pos h2, if_pos h2.symm]
    · rw [if_neg h2, if_neg (show ¬v = u from fun h => h2 h.symm)]

lemma minmax_pair_eq {u v : ℤ} (huv : u < v) (w x : ℤ) :
    (min w x, max w x) = (u, v) ↔ (w = u ∧ x = v) ∨ (w = v ∧ x = u) := by
  rw [Prod.mk.injEq]
  constructor <;> intro h <;> omega

lemma add_edge_core_spec {g : SimpGraph} (hg : Invariant g) {u v : ℤ}
    (hu : 0 < u) (hlt : u < v) (lab : Option String) :
    ∃ g4, add_edge g u v lab = (none, g4) ∧ Invariant g4 ∧
      g4.vertex_set = insert v (insert u g.vertex_set) ∧
      g4.edge_set = insert (u, v) g.edge_set ∧
      (∀ w, w ∈ g4.adj_dict ↔ w = v ∨ w = u ∨ w ∈ g.adj_dict) ∧
      adjGet g4.adj_dict u = insert v (adjGet g.adj_dict u) ∧
      adjGet g4.adj_dict v = insert u (adjGet g.adj_dict v) ∧
      (∀ w, w ≠ u → w ≠ v → adjGet g4.adj_dict w = adjGet g.adj_dict w) ∧
      g4.vertex_label_dict = g.vertex_label_dict ∧
      (∀ e, g4.edge_label_dict.lookup e =
        if e = (u, v) ∧ lab ≠ none then lab else g.edge_label_dict.lookup e) := by
  by_cases hmem : (u, v) ∈ g.edge_set
  · have h1 := hg.edge_mem _ hmem
    have hv_in : v ∈ adjGet g.adj_dict u := by
      rw [hg.adj_iff u v, min_eq_left hlt.le, max_eq_right hlt.le]
      exact hmem
    have hu_in : u ∈ adjGet g.adj_dict v := by
      rw [hg.adj_iff v u, min_eq_right hlt.le, max_eq_left hlt.le]
      exact hmem
    refine ⟨withELabel g (u, v) lab, ?_, invariant_withELabel hg hmem lab, ?_, ?_, ?_, ?_, ?_, ?_, ?_, ?_⟩
    · simp only [add_edge, canon_of_lt hlt]
      rw [if_neg (by omega), if_neg (show ¬u = v by omega), if_pos hmem]
    · rw [withELabel_vertex_set, Finset.insert_eq_self.mpr h1.1, Finset.insert_eq_self.mpr h1.2]
    · rw [withELabel_edge_set, Finset.insert_eq_self.mpr hmem]
    · intro w
      rw [withELabel_adj_dict]
      constructor
      · exact fun h => Or.inr (Or.inr h)
      · rintro (rfl | rfl | h)
        · exact (hg.adj_keys w).mpr h1.2
        · exact (hg.adj_keys w).mpr h1.1
        · exact h
    · rw [withELabel_adj_dict, Finset.insert_eq_self.mpr hv_in]
    · rw [withELabel_adj_dict, Finset.insert_eq_self.mpr hu_in]
    · intro w _ _
      rw [withELabel_adj_dict]
    · rw [withELabel_vertex_label_dict]
    · intro e
      exact withELabel_lookup g (u, v) lab e
  · have hv : (0:ℤ) < v := by omega
    have hne : u ≠ v := by omega
    obtain ⟨g1, heq1, hinv1, hvs1, hes1, hvl1, hel1, hm1, ha1⟩ := add_vertex_none_spec hg hu
    obtain ⟨g2, heq2, hinv2, hvs2, hes2, hvl2, hel2, hm2, ha2⟩ := add_vertex_none_spec hinv1 hv
    have hu2 : u ∈ g2.adj_dict := (hm2 u).mpr (Or.inr ((hm1 u).mpr (Or.inl rfl)))
    have hAdd1 := adjAdd_spec v hu2
    set d1 : AdjDict := g2.adj_dict.insert u (insert v (adjGet g2.adj_dict u)) with hd1
    have hvd1 : v ∈ d1 := by
      rw [hd1]
      exact (mem_insert_adj _ _ _ v).mpr (Or.inr ((hm2 v).mpr (Or.inl rfl)))
    have hAdd2 := adjAdd_spec u hvd1
    set d2 : AdjDict := d1.insert v (insert u (adjGet d1 v)) with hd2
    have hgetd1v : adjGet d1 v = adjGet g2.adj_dict v := by
      rw [hd1, adjGet_insert, if_neg (show ¬v = u by omega)]
    have hA2 : ∀ w, adjGet g2.adj_dict w = adjGet g.adj_dict w :=
      fun w => (ha2 w).trans (ha1 w)
    have hE2 : g2.edge_set = g.edge_set := hes2.trans hes1
    have hVS2 : g2.vertex_set = insert v (insert u g.vertex_set) := by rw [hvs2, hvs1]
    have huVS2 : u ∈ g2.vertex_set := by rw [hVS2]; simp
    have hvVS2 : v ∈ g2.vertex_set := by rw [hVS2]; simp
    -- membership characterization of d2
    have hmemd2 : ∀ w, w ∈ d2 ↔ w = v ∨ w = u ∨ w ∈ g.adj_dict := by
      intro w
      rw [hd2, mem_insert_adj, hd1, mem_insert_adj, hm2 w, hm1 w]
      tauto
    -- adjGet characterization of d2
    have hget_u : adjGet d2 u = insert v (adjGet g.adj_dict u) := by
      rw [hd2, adjGet_insert, if_neg (show ¬u = v by omega), hd1, adjGet_insert,
        if_pos rfl, hA2 u]
    have hget_v : adjGet d2 v = insert u (adjGet g.adj_dict v) := by
      rw [hd2, adjGet_insert, if_pos rfl, hgetd1v, hA2 v]
    have hget_w : ∀ w, w ≠ u → w ≠ v → adjGet d2 w = adjGet g.adj_dict w := by
      intro w hwu hwv
      rw [hd2, adjGet_insert, if_neg hwv, hd1, adjGet_insert, if_neg hwu, hA2 w]
    have hpair := minmax_pair_eq hlt
    -- invariant of the core state
    have hcore : Invariant { g2 with adj_dict := d2, edge_set := insert (u, v) g2.edge_set } := by
      refine ⟨?_, ?_, ?_, ?_, ?_, ?_, ?_⟩
      · intro e he
        rcases Finset.mem_insert.mp he with rfl | h
        · exact ⟨huVS2, hvVS2⟩
        · exact hinv2.edge_mem e h
      · intro e he
        rcases Finset.mem_insert.mp he with rfl | h
        · exact hlt
        · exact hinv2.edge_lt e h
      · intro w
        show w ∈ d2 ↔ w ∈ g2.vertex_set
        rw [hmemd2 w, hVS2, Finset.mem_insert, Finset.mem_insert, hg.adj_keys w]
      · intro w x
        show x ∈ adjGet d2 w ↔ (min w x, max w x) ∈ insert (u, v) g2.edge_set
        rw [Finset.mem_insert, hE2, hpair w x]
        by_cases hwu : w = u
        · subst hwu
          rw [hget_u, Finset.mem_insert, ← hg.adj_iff w x]
          constructor
          · rintro (rfl | h)
            · exact Or.inl (Or.inl ⟨rfl, rfl⟩)
            · exact Or.inr h
          · rintro ((⟨_, rfl⟩ | ⟨h, _⟩) | h)
            · exact Or.inl rfl
            · exact absurd h hne
            · exact Or.inr h
        · by_cases hwv : w = v
          · subst hwv
            rw [hget_v, Finset.mem_insert, ← hg.adj_iff w x]
            constructor
            · rintro (rfl | h)
              · exact Or.inl (Or.inr ⟨rfl, rfl⟩)
              · exact Or.inr h
            · rintro ((⟨h, _⟩ | ⟨_, rfl⟩) | h)
              · exact absurd h.symm hne
              · exact Or.inl rfl
              · exact Or.inr h
          · rw [hget_w w hwu hwv, ← hg.adj_iff w x]
            constructor
            · exact fun h => Or.inr h
            · rintro ((⟨h, _⟩ | ⟨h, _⟩) | h)
              · exact absurd h hwu
              · exact absurd h hwv
              · exact h
      · intro w hw
        show w ∈ g2.vertex_set
        exact hinv2.vlabel_mem w hw
      · intro e he
        exact Finset.mem_insert_of_mem (hinv2.elabel_mem e he)
      · intro w hw
        exact hinv2.vpos w hw
    refine ⟨withELabel { g2 with adj_dict := d2, edge_set := insert (u, v) g2.edge_set } (u, v) lab,
      ?_, invariant_withELabel hcore (Finset.mem_insert_self _ _) lab, ?_, ?_, ?_, ?_, ?_, ?_, ?_, ?_⟩
    · simp only [add_edge, canon_of_lt hlt]
      rw [if_neg (by omega), if_neg (show ¬u = v by omega), if_neg hmem]
      simp only [heq1, heq2, hAdd1, hAdd2]
    · rw [withELabel_vertex_set]
      show g2.vertex_set = _
      exact hVS2
    · rw [withELabel_edge_set]
      show insert (u, v) g2.edge_set = _
      rw [hE2]
    · intro w
      rw [withELabel_adj_dict]
      exact hmemd2 w
    · rw [withELabel_adj_dict]
      exact hget_u
    · rw [withELabel_adj_dict]
      exact hget_v
    · intro w hwu hwv
      rw [withELabel_adj_dict]
      exact hget_w w hwu hwv
    · rw [withELabel_vertex_label_dict]
      show g2.vertex_label_dict = _
      rw [hvl2, hvl1]
    · intro e
      rw [withELabel_lookup]
      show (if e = (u, v) ∧ lab ≠ none then lab
        else g2.edge_label_dict.lookup e) = _
      rw [hel2, hel1]

lemma canon_canon (u v : ℤ) : canon (canon u v).1 (canon u v).2 = canon u v := by
  rw [canon_eq, canon_eq]
  simp only [Prod.mk.injEq]
  constructor <;> omega

/-- discard_edge on arguments in either order equals discard_edge on the
canonical pair. -/
lemma discard_edge_canon (g : SimpGraph) (u v : ℤ) :
    discard_edge g u v = discard_edge g (canon u v).1 (canon u v).2 := by
  unfold discard_edge
  rw [canon_canon]

lemma discard_edge_symm (g : SimpGraph) (u v : ℤ) :
    discard_edge g u v = discard_edge g v u := by
  unfold discard_edge
  rw [canon_symm]

lemma edge_label_symm (g : SimpGraph) (u v : ℤ) :
    edge_label g u v = edge_label g v u := by
  unfold edge_label
  rw [canon_symm]

lemma discard_edge_absent {g : SimpGraph} {u v : ℤ} (h : canon u v ∉ g.edge_set) :
    discard_edge g u v = (none, g) := by
  unfold discard_edge
  rw [if_pos h]

lemma discard_edge_present_spec {g : SimpGraph} (hg : Invariant g) {u v : ℤ}
    (hlt : u < v) (hmem : (u, v) ∈ g.edge_set) :
    ∃ g2, discard_edge g u v = (none, g2) ∧ Invariant g2 ∧
      g2.vertex_set = g.vertex_set ∧
      g2.edge_set = g.edge_set.erase (u, v) ∧
      (∀ w, w ∈ g2.adj_dict ↔ w ∈ g.adj_dict) ∧
      adjGet g2.adj_dict u = (adjGet g.adj_dict u).erase v ∧
      adjGet g2.adj_dict v = (adjGet g.adj_dict v).erase u ∧
      (∀ w, w ≠ u → w ≠ v → adjGet g2.adj_dict w = adjGet g.adj_dict w) ∧
      g2.vertex_label_dict = g.vertex_label_dict ∧
      g2.edge_label_dict = g.edge_label_dict.erase (u, v) := by
  have h1 := hg.edge_mem _ hmem
  have hne : u ≠ v := by omega
  have hv_in : v ∈ adjGet g.adj_dict u := by
    rw [hg.adj_iff u v, min_eq_left hlt.le, max_eq_right hlt.le]
    exact hmem
  have hu_in : u ∈ adjGet g.adj_dict v := by
    rw [hg.adj_iff v u, min_eq_right hlt.le, max_eq_left hlt.le]
    exact hmem
  have hu_adj : u ∈ g.adj_dict := (hg.adj_keys u).mpr h1.1
  have hv_adj : v ∈ g.adj_dict := (hg.adj_keys v).mpr h1.2
  -- the state g1 after removing the edge and its label
  set g1 : SimpGraph :=
    { g with edge_set := g.edge_set.erase (u, v),
             edge_label_dict := g.edge_label_dict.erase (u, v) } with hg1
  have hRem1 : adjRemove g1.adj_dict u v =
      some (g.adj_dict.insert u ((adjGet g.adj_dict u).erase v)) :=
    adjRemove_spec hu_adj hv_in
  set dA : AdjDict := g.adj_dict.insert u ((adjGet g.adj_dict u).erase v) with hdA
  have hv_dA : v ∈ dA := by
    rw [hdA]
    exact (mem_insert_adj _ _ _ v).mpr (Or.inr hv_adj)
  have hget_dA_v : adjGet dA v = adjGet g.adj_dict v := by
    rw [hdA, adjGet_insert, if_neg (show ¬v = u by omega)]
  have hu_dA_v : u ∈ adjGet dA v := by rw [hget_dA_v]; exact hu_in
  have hRem2 : adjRemove dA v u = some (dA.insert v ((adjGet dA v).erase u)) :=
    adjRemove_spec hv_dA hu_dA_v
  set dB : AdjDict := dA.insert v ((adjGet dA v).erase u) with hdB
  have hmemdB : ∀ w, w ∈ dB ↔ w ∈ g.adj_dict := by
    intro w
    rw [hdB, mem_insert_adj, hdA, mem_insert_adj]
    constructor
    · rintro (rfl | rfl | h)
      · exact hv_adj
      · exact hu_adj
      · exact h
    · exact fun h => Or.inr (Or.inr h)
  have hget_u : adjGet dB u = (adjGet g.adj_dict u).erase v := by
    rw [hdB, adjGet_insert, if_neg (show ¬u = v by omega), hdA, adjGet_insert, if_pos rfl]
  have hget_v : adjGet dB v = (adjGet g.adj_dict v).erase u := by
    rw [hdB, adjGet_insert, if_pos rfl, hget_dA_v]
  have hget_w : ∀ w, w ≠ u → w ≠ v → adjGet dB w = adjGet g.adj_dict w := by
    intro w hwu hwv
    rw [hdB, adjGet_insert, if_neg hwv, hdA, adjGet_insert, if_neg hwu]
  have hpair := minmax_pair_eq hlt
  refine ⟨{ g1 with adj_dict := dB }, ?_, ?_, rfl, rfl, ?_, ?_, ?_, ?_, rfl, rfl⟩
  · simp only [discard_edge, canon_of_lt hlt]
    rw [if_neg (by simp [hmem])]
    simp only [hg1, hRem1, hRem2]
  · refine ⟨?_, ?_, ?_, ?_, ?_, ?_, ?_⟩
    · intro e he
      exact hg.edge_mem e (Finset.mem_of_mem_erase he)
    · intro e he
      exact hg.edge_lt e (Finset.mem_of_mem_erase he)
    · intro w
      show w ∈ dB ↔ w ∈ g.vertex_set
      rw [hmemdB w, hg.adj_keys w]
    · intro w x
      show x ∈ adjGet dB w ↔ (min w x, max w x) ∈ (g.edge_set.erase (u, v))
      rw [Finset.mem_erase, ← hg.adj_iff w x]
      by_cases hwu : w = u
      · subst hwu
        rw [hget_u, Finset.mem_erase]
        constructor
        · rintro ⟨hxv, hx⟩
          refine ⟨?_, hx⟩
          rw [Ne, hpair w x]
          rintro (⟨_, rfl⟩ | ⟨rfl, _⟩)
          · exact hxv rfl
          · exact hne rfl
        · rintro ⟨hp, hx⟩
          refine ⟨?_, hx⟩
          intro hxv
          subst hxv
          exact hp ((hpair w x).mpr (Or.inl ⟨rfl, rfl⟩))
      · by_cases hwv : w = v
        · subst hwv
          rw [hget_v, Finset.mem_erase]
          constructor
          · rintro ⟨hxu, hx⟩
            refine ⟨?_, hx⟩
            rw [Ne, hpair w x]
            rintro (⟨rfl, _⟩ | ⟨_, rfl⟩)
            · exact hne rfl
            · exact hxu rfl
          · rintro ⟨hp, hx⟩
            refine ⟨?_, hx⟩
            intro hxu
            subst hxu
            exact hp ((hpair w x).mpr (Or.inr ⟨rfl, rfl⟩))
        · rw [hget_w w hwu hwv]
          constructor
          · intro hx
            refine ⟨?_, hx⟩
            rw [Ne, hpair w x]
            rintro (⟨rfl, _⟩ | ⟨rfl, _⟩)
            · exact hwu rfl
            · exact hwv rfl
          · exact fun h => h.2
    · intro w hw
      exact hg.vlabel_mem w hw
    · intro e he
      show e ∈ g.edge_set.erase (u, v)
      have h2 := Finmap.mem_erase.mp he
      exact Finset.mem_erase.mpr ⟨h2.1, hg.elabel_mem e h2.2⟩
    · exact hg.vpos
  · intro w
    show w ∈ dB ↔ w ∈ g.adj_dict
    exact hmemdB w
  · show adjGet dB u = _
    exact hget_u
  · show adjGet dB v = _
    exact hget_v
  · intro w hwu hwv
    show adjGet dB w = _
    exact hget_w w hwu hwv

lemma discard_edge_present_spec2 {g : SimpGraph} (hg : Invariant g) {u v : ℤ}
    (hne : u ≠ v) (hmem : (min u v, max u v) ∈ g.edge_set) :
    ∃ g2, discard_edge g u v = (none, g2) ∧ Invariant g2 ∧
      g2.vertex_set = g.vertex_set ∧
      g2.edge_set = g.edge_set.erase (min u v, max u v) ∧
      (∀ w, w ∈ g2.adj_dict ↔ w ∈ g.adj_dict) ∧
      adjGet g2.adj_dict u = (adjGet g.adj_dict u).erase v ∧
      adjGet g2.adj_dict v = (adjGet g.adj_dict v).erase u ∧
      (∀ w, w ≠ u → w ≠ v → adjGet g2.adj_dict w = adjGet g.adj_dict w) ∧
      g2.vertex_label_dict = g.vertex_label_dict ∧
      g2.edge_label_dict = g.edge_label_dict.erase (min u v, max u v) := by
  rcases lt_or_gt_of_ne hne with hlt | hlt
  · rw [min_eq_left hlt.le, max_eq_right hlt.le] at hmem ⊢
    exact discard_edge_present_spec hg hlt hmem
  · rw [min_eq_right hlt.le, max_eq_left hlt.le] at hmem ⊢
    rw [discard_edge_symm]
    obtain ⟨g2, h1, h2, h3, h4, h5, h6, h7, h8, h9, h10⟩ :=
      discard_edge_present_spec hg hlt hmem
    exact ⟨g2, h1, h2, h3, h4, h5, h7, h6, fun w hw1 hw2 => h8 w hw2 hw1, h9, h10⟩

lemma discardEdges_spec {u : ℤ} : ∀ (l : List ℤ) (g : SimpGraph), Invariant g →
    (∀ v ∈ l, v ∈ adjGet g.adj_dict u) → l.Nodup →
    ∃ g1, discardEdges u g l = (none, g1) ∧ Invariant g1 ∧
      g1.vertex_set = g.vertex_set ∧
      (∀ e, e ∈ g1.edge_set ↔ e ∈ g.edge_set ∧ e ∉ l.map (inc u)) ∧
      (∀ w, w ∈ g1.adj_dict ↔ w ∈ g.adj_dict) ∧
      adjGet g1.adj_dict u = adjGet g.adj_dict u \ l.toFinset ∧
      (∀ w, w ≠ u → adjGet g1.adj_dict w =
        if w ∈ l then (adjGet g.adj_dict w).erase u else adjGet g.adj_dict w) ∧
      g1.vertex_label_dict = g.vertex_label_dict ∧
      (∀ e, e ∈ l.map (inc u) → g1.edge_label_dict.lookup e = none) ∧
      (∀ e, e ∉ l.map (inc u) → g1.edge_label_dict.lookup e = g.edge_label_dict.lookup e) := by
  intro l
  induction l with
  | nil =>
    intro g hg _ _
    refine ⟨g, rfl, hg, rfl, ?_, fun w => Iff.rfl, ?_, ?_, rfl, ?_, fun e _ => rfl⟩
    · intro e; simp
    · simp
    · intro w _; simp
    · intro e he; simp at he
  | cons v vs ih =>
    intro g hg hadj hnd
    have hv : v ∈ adjGet g.adj_dict u := hadj v (List.mem_cons_self v vs)
    have hmem : (min u v, max u v) ∈ g.edge_set := (hg.adj_iff u v).mp hv
    have hne : u ≠ v := by
      have := hg.edge_lt _ hmem
      simp only at this
      omega
    obtain ⟨g2, heq, hinv2, hvs2, hes2, hm2, hgu2, hgv2, hgw2, hvl2, hel2⟩ :=
      discard_edge_present_spec2 hg hne hmem
    have hnd2 : vs.Nodup := (List.nodup_cons.mp hnd).2
    have hvns : v ∉ vs := (List.nodup_cons.mp hnd).1
    have hadj2 : ∀ x ∈ vs, x ∈ adjGet g2.adj_dict u := by
      intro x hx
      rw [hgu2, Finset.mem_erase]
      exact ⟨fun h => hvns (h ▸ hx), hadj x (List.mem_cons_of_mem v hx)⟩
    obtain ⟨g1, heq1, hinv1, hvs1, hes1, hm1, hgu1, hgw1, hvl1, helN1, helS1⟩ :=
      ih g2 hinv2 hadj2 hnd2
    have hstep : discardEdges u g (v :: vs) = discardEdges u g2 vs := by
      show (match discard_edge g u v with
        | (none, g1) => discardEdges u g1 vs
        | (some e, g1) => (some e, g1)) = _
      rw [heq]
    refine ⟨g1, by rw [hstep, heq1], hinv1, by rw [hvs1, hvs2], ?_, ?_, ?_, ?_,
      by rw [hvl1, hvl2], ?_, ?_⟩
    · intro e
      rw [hes1 e, hes2, Finset.mem_erase, List.map_cons, List.mem_cons]
      unfold inc
      tauto
    · intro w
      rw [hm1 w, hm2 w]
    · rw [hgu1, hgu2, List.toFinset_cons]
      ext a
      simp only [Finset.mem_sdiff, Finset.mem_erase, Finset.mem_insert]
      tauto
    · intro w hw
      rw [hgw1 w hw]
      by_cases hwv : w = v
      · subst hwv
        rw [if_neg (by simp [hvns]), if_pos (List.mem_cons_self w vs), hgv2]
      · by_cases hwin : w ∈ vs
        · rw [if_pos hwin, if_pos (List.mem_cons_of_mem v hwin), hgw2 w hw hwv]
        · rw [if_neg hwin, if_neg (by simp [hwv, hwin]), hgw2 w hw hwv]
    · intro e he
      rw [List.map_cons, List.mem_cons] at he
      by_cases hin : e ∈ vs.map (inc u)
      · exact helN1 e hin
      · rcases he with rfl | he
        · rw [helS1 _ hin, hel2]
          exact Finmap.lookup_erase _ _
        · exact absurd he hin
    · intro e he
      rw [List.map_cons, List.mem_cons] at he
      push_neg at he
      rw [helS1 e he.2, hel2, Finmap.lookup_erase_ne]
      exact fun h => he.1 (by rw [h]; rfl)

lemma finSortedList_coe {α : Type} (r : α → α → Prop) [DecidableRel r]
    [IsTrans α r] [IsAntisymm α r] [IsTotal α r] (s : Finset α) :
    (↑(finSortedList r s) : Multiset α) = s.val := by
  rcases s with ⟨m, hm⟩
  revert hm
  refine Quot.inductionOn m (fun l hx => ?_)
  exact Quot.sound (List.perm_insertionSort r l)

lemma finSortedList_mem {α : Type} (r : α → α → Prop) [DecidableRel r]
    [IsTrans α r] [IsAntisymm α r] [IsTotal α r] (s : Finset α) (a : α) :
    a ∈ finSortedList r s ↔ a ∈ s := by
  rw [← Multiset.mem_coe, finSortedList_coe]
  exact Iff.rfl

lemma finSortedList_nodup {α : Type} (r : α → α → Prop) [DecidableRel r]
    [IsTrans α r] [IsAntisymm α r] [IsTotal α r] (s : Finset α) :
    (finSortedList r s).Nodup := by
  have h := s.nodup
  rw [← finSortedList_coe r s] at h
  exact Multiset.coe_nodup.mp h

lemma finSortedList_toFinset {α : Type} [DecidableEq α] (r : α → α → Prop)
    [DecidableRel r] [IsTrans α r] [IsAntisymm α r] [IsTotal α r] (s : Finset α) :
    (finSortedList r s).toFinset = s := by
  ext a
  rw [List.mem_toFinset, finSortedList_mem]

lemma discard_vertex_absent {g : SimpGraph} {u : ℤ} (h : u ∉ g.vertex_set) :
    discard_vertex g u = (none, g) := by
  unfold discard_vertex
  rw [if_pos h]

lemma discard_vertex_present_spec {g : SimpGraph} (hg : Invariant g) {u : ℤ}
    (hu : u ∈ g.vertex_set) :
    ∃ g3, discard_vertex g u = (none, g3) ∧ Invariant g3 ∧
      g3.vertex_set = g.vertex_set.erase u ∧
      (∀ e, e ∈ g3.edge_set ↔ e ∈ g.edge_set ∧ e.1 ≠ u ∧ e.2 ≠ u) ∧
      (∀ w, w ∈ g3.adj_dict ↔ w ≠ u ∧ w ∈ g.adj_dict) ∧
      (∀ w, w ≠ u → adjGet g3.adj_dict w = (adjGet g.adj_dict w).erase u) ∧
      adjGet g3.adj_dict u = ∅ ∧
      g3.vertex_label_dict = g.vertex_label_dict.erase u ∧
      (∀ e : ℤ × ℤ, (e.1 = u ∨ e.2 = u) → g3.edge_label_dict.lookup e = none) ∧
      (∀ e : ℤ × ℤ, e.1 ≠ u → e.2 ≠ u →
        g3.edge_label_dict.lookup e = g.edge_label_dict.lookup e) := by
  have huadj : u ∈ g.adj_dict := (hg.adj_keys u).mpr hu
  have hlook := adjGet_of_mem huadj
  set nbrs := adjGet g.adj_dict u with hnbrs
  set l : List ℤ := finSortedList (· ≤ ·) nbrs with hl
  have hlnd : l.Nodup := finSortedList_nodup _ _
  have hlmem : ∀ v, v ∈ l ↔ v ∈ nbrs := fun v => finSortedList_mem _ _ v
  have hltf : l.toFinset = nbrs := finSortedList_toFinset _ _
  obtain ⟨g1, heq1, hinv1, hvs1, hes1, hm1, hgu1, hgw1, hvl1, helN1, helS1⟩ :=
    discardEdges_spec l g hg (fun v hv => (hlmem v).mp hv) hlnd
  -- edges of g incident to u are exactly those discarded by the loop
  have hinc : ∀ e, e ∈ g.edge_set → (e ∈ l.map (inc u) ↔ (e.1 = u ∨ e.2 = u)) := by
    intro e he
    have helt := hg.edge_lt e he
    constructor
    · intro hmap
      rcases List.mem_map.mp hmap with ⟨v, hvl, hev⟩
      have : u ≠ v := by
        have hm := (hg.adj_iff u v).mp ((hlmem v).mp hvl)
        have := hg.edge_lt _ hm
        simp only at this
        omega
      rw [← hev]
      unfold inc
      simp only
      omega
    · intro hcoord
      rcases hcoord with hc | hc
      · refine List.mem_map.mpr ⟨e.2, ?_, ?_⟩
        · rw [hlmem, hnbrs, hg.adj_iff u e.2]
          have : (min u e.2, max u e.2) = e := by
            have : u < e.2 := by omega
            rw [min_eq_left this.le, max_eq_right this.le, ← hc]
          rw [this]
          exact he
        · unfold inc
          have : u < e.2 := by omega
          rw [min_eq_left this.le, max_eq_right this.le, ← hc]
      · refine List.mem_map.mpr ⟨e.1, ?_, ?_⟩
        · rw [hlmem, hnbrs, hg.adj_iff u e.1]
          have : (min u e.1, max u e.1) = e := by
            have : e.1 < u := by omega
            rw [min_eq_right this.le, max_eq_left this.le, ← hc]
          rw [this]
          exact he
        · unfold inc
          have : e.1 < u := by omega
          rw [min_eq_right this.le, max_eq_left this.le, ← hc]
  -- no vertex other than a neighbor of u has u in its stored adjacency set
  have hnostale : ∀ w, w ∉ l → u ∉ adjGet g.adj_dict w := by
    intro w hwl hmemu
    apply hwl
    rw [hlmem, hnbrs, hg.adj_iff u w, min_comm, max_comm]
    exact (hg.adj_iff w u).mp hmemu
  have hug1 : u ∈ g1.vertex_set := by rw [hvs1]; exact hu
  have huadj1 : u ∈ g1.adj_dict := (hm1 u).mpr huadj
  -- evaluate the function
  have heval : discard_vertex g u =
      (none, { g1 with vertex_set := g1.vertex_set.erase u,
                       vertex_label_dict := g1.vertex_label_dict.erase u,
                       adj_dict := g1.adj_dict.erase u }) := by
    unfold discard_vertex
    rw [if_neg (not_not_intro hu), hlook]
    show (match discardEdges u g (finSortedList (· ≤ ·) nbrs) with
      | (some e, g1) => (some e, g1)
      | (none, g1) => _) = _
    rw [← hl, heq1]
    simp only
    rw [if_pos hug1, if_pos huadj1]
  refine ⟨_, heval, ?_, by rw [hvs1], ?_, ?_, ?_, ?_, by rw [hvl1], ?_, ?_⟩
  · -- Invariant of the final state
    refine ⟨?_, ?_, ?_, ?_, ?_, ?_, ?_⟩
    · intro e he
      show e.1 ∈ g1.vertex_set.erase u ∧ e.2 ∈ g1.vertex_set.erase u
      have he2 := (hes1 e).mp he
      have hco : ¬(e.1 = u ∨ e.2 = u) := fun hc => he2.2 ((hinc e he2.1).mpr hc)
      push_neg at hco
      have hm := hg.edge_mem e he2.1
      rw [hvs1]
      exact ⟨Finset.mem_erase.mpr ⟨hco.1, hm.1⟩, Finset.mem_erase.mpr ⟨hco.2, hm.2⟩⟩
    · intro e he
      exact hinv1.edge_lt e he
    · intro w
      show w ∈ g1.adj_dict.erase u ↔ w ∈ g1.vertex_set.erase u
      rw [Finmap.mem_erase, Finset.mem_erase, hinv1.adj_keys w]
    · intro w x
      show x ∈ adjGet (g1.adj_dict.erase u) w ↔ _
      rw [adjGet_erase]
      by_cases hw : w = u
      · rw [if_pos hw]
        simp only [Finset.not_mem_empty, false_iff]
        intro hmem2
        have h3 := (hes1 _).mp hmem2
        have hor : (min w x, max w x).1 = u ∨ (min w x, max w x).2 = u := by
          simp only
          omega
        exact h3.2 ((hinc _ h3.1).mpr hor)
      · rw [if_neg hw, hinv1.adj_iff w x]
    · intro w hw
      show w ∈ g1.vertex_set.erase u
      have h2 := Finmap.mem_erase.mp hw
      exact Finset.mem_erase.mpr ⟨h2.1, hinv1.vlabel_mem w h2.2⟩
    · intro e he
      exact hinv1.elabel_mem e he
    · intro w hw
      exact hinv1.vpos w (Finset.mem_of_mem_erase hw)
  · intro e
    show e ∈ g1.edge_set ↔ _
    rw [hes1 e]
    constructor
    · rintro ⟨h1, h2⟩
      refine ⟨h1, ?_⟩
      have : ¬(e.1 = u ∨ e.2 = u) := fun hc => h2 ((hinc e h1).mpr hc)
      push_neg at this
      exact this
    · rintro ⟨h1, h2, h3⟩
      exact ⟨h1, fun hc => (by omega : ¬(e.1 = u ∨ e.2 = u)) ((hinc e h1).mp hc)⟩
  · intro w
    show w ∈ g1.adj_dict.erase u ↔ _
    rw [Finmap.mem_erase, hm1 w]
  · intro w hw
    show adjGet (g1.adj_dict.erase u) w = _
    rw [adjGet_erase, if_neg hw, hgw1 w hw]
    by_cases hwl : w ∈ l
    · rw [if_pos hwl]
    · rw [if_neg hwl, Finset.erase_eq_self.mpr (hnostale w hwl)]
  · show adjGet (g1.adj_dict.erase u) u = ∅
    rw [adjGet_erase, if_pos rfl]
  · intro e hco
    show g1.edge_label_dict.lookup e = none
    by_cases hmap : e ∈ l.map (inc u)
    · exact helN1 e hmap
    · rw [helS1 e hmap]
      rw [Finmap.lookup_eq_none]
      intro hlab
      have he := hg.elabel_mem e hlab
      exact hmap ((hinc e he).mpr hco)
  · intro e h1 h2
    show g1.edge_label_dict.lookup e = _
    apply helS1
    intro hmap
    rcases List.mem_map.mp hmap with ⟨v, _, hev⟩
    unfold inc at hev
    have : e.1 = u ∨ e.2 = u := by
      rw [← hev]
      simp only
      omega
    omega

lemma invariant_withVLabel {g : SimpGraph} (hg : Invariant g) {u : ℤ}
    (hu : u ∈ g.vertex_set) (lab : Option String) : Invariant (withVLabel g u lab) := by
  refine ⟨?_, ?_, ?_, ?_, ?_, ?_, ?_⟩ <;> simp only [withVLabel_vertex_set,
    withVLabel_edge_set, withVLabel_adj_dict, withVLabel_edge_label_dict]
  · exact hg.edge_mem
  · exact hg.edge_lt
  · exact hg.adj_keys
  · exact hg.adj_iff
  · intro w hw
    rcases withVLabel_mem hw with rfl | h
    · exact hu
    · exact hg.vlabel_mem w h
  · exact hg.elabel_mem
  · exact hg.vpos

lemma invariant_add_vertex {g : SimpGraph} (hg : Invariant g) (u : ℤ)
    (lab : Option String) : Invariant (add_vertex g u lab).2 := by
  by_cases h0 : u ≤ 0
  · unfold add_vertex
    rw [if_pos h0]
    exact hg
  · by_cases hmem : u ∈ g.vertex_set
    · unfold add_vertex
      rw [if_neg h0, if_pos hmem]
      exact invariant_withVLabel hg hmem lab
    · have hadj : u ∉ g.adj_dict := fun h => hmem ((hg.adj_keys u).mp h)
      obtain ⟨g1, heq, hinv, hvs, _⟩ := add_vertex_none_spec hg (by omega : (0:ℤ) < u)
      unfold add_vertex at heq ⊢
      rw [if_neg h0, if_neg hmem, if_neg hadj] at heq ⊢
      have hg1 : withVLabel { g with adj_dict := g.adj_dict.insert u ∅, vertex_set := insert u g.vertex_set } u none = g1 := congrArg Prod.snd heq
      show Invariant (withVLabel _ u lab)
      rw [show ({ g with adj_dict := g.adj_dict.insert u ∅, vertex_set := insert u g.vertex_set } : SimpGraph) = g1 from hg1]
      exact invariant_withVLabel hinv (by rw [hvs]; exact Finset.mem_insert_self u _) lab

lemma invariant_add_edge {g : SimpGraph} (hg : Invariant g) (u v : ℤ)
    (lab : Option String) : Invariant (add_edge g u v lab).2 := by
  by_cases h0 : u ≤ 0 ∨ v ≤ 0
  · unfold add_edge
    rw [if_pos h0]
    exact hg
  · by_cases hne : u = v
    · unfold add_edge
      rw [if_neg h0, if_pos hne]
      exact hg
    · rcases lt_or_gt_of_ne hne with hlt | hlt
      · obtain ⟨g4, heq, hinv, _⟩ := add_edge_core_spec hg (by omega) hlt lab
        rw [heq]
        exact hinv
      · rw [add_edge_symm]
        obtain ⟨g4, heq, hinv, _⟩ := add_edge_core_spec hg (by omega) hlt lab
        rw [heq]
        exact hinv

lemma invariant_discard_edge {g : SimpGraph} (hg : Invariant g) (u v : ℤ) :
    Invariant (discard_edge g u v).2 := by
  by_cases hmem : canon u v ∈ g.edge_set
  · rw [canon_eq] at hmem
    have hne : u ≠ v := by
      have := hg.edge_lt _ hmem
      simp only at this
      omega
    obtain ⟨g2, heq, hinv, _⟩ := discard_edge_present_spec2 hg hne hmem
    rw [heq]
    exact hinv
  · rw [discard_edge_absent hmem]
    exact hg

lemma invariant_discard_vertex {g : SimpGraph} (hg : Invariant g) (u : ℤ) :
    Invariant (discard_vertex g u).2 := by
  by_cases hu : u ∈ g.vertex_set
  · obtain ⟨g3, heq, hinv, _⟩ := discard_vertex_present_spec hg hu
    rw [heq]
    exact hinv
  · rw [discard_vertex_absent hu]
    exact hg

lemma invariantB_iff (g : SimpGraph) : InvariantB g ↔ Invariant g := by
  constructor
  · rintro ⟨h1, h2, h3, h4, h5, h6⟩
    have hkeys : ∀ w : ℤ, w ∈ g.adj_dict ↔ w ∈ g.vertex_set := by
      intro w
      rw [← Finmap.mem_keys, h2]
    refine ⟨fun e he => ⟨(h1 e he).1, (h1 e he).2.1⟩, fun e he => (h1 e he).2.2,
      hkeys, ?_, fun w hw => h5 w (Finmap.mem_keys.mpr hw),
      fun e he => h6 e (Finmap.mem_keys.mpr he), fun u hu => (h3 u hu).1⟩
    intro w x
    constructor
    · intro hx
      by_cases hw : w ∈ g.vertex_set
      · exact (h3 w hw).2 x hx
      · exfalso
        have : g.adj_dict.lookup w = none :=
          Finmap.lookup_eq_none.mpr (fun h => hw ((hkeys w).mp h))
        rw [adjGet, this] at hx
        exact absurd hx (by simp)
    · intro hmem
      have h4e := h4 _ hmem
      rcases lt_trichotomy w x with hlt | rfl | hlt
      · have e1 : min w x = w := min_eq_left hlt.le
        have e2 : max w x = x := max_eq_right hlt.le
        have := h4e.1
        simp only at this
        rwa [e1, e2] at this
      · have := (h1 _ hmem).2.2
        simp only at this
        omega
      · have e1 : min w x = x := min_eq_right hlt.le
        have e2 : max w x = w := max_eq_left hlt.le
        have := h4e.2
        simp only at this
        rwa [e1, e2] at this
  · intro hg
    refine ⟨fun e he => ⟨(hg.edge_mem e he).1, (hg.edge_mem e he).2, hg.edge_lt e he⟩,
      ?_, ?_, ?_, fun w hw => hg.vlabel_mem w (Finmap.mem_keys.mp hw),
      fun e he => hg.elabel_mem e (Finmap.mem_keys.mp he)⟩
    · ext w
      rw [Finmap.mem_keys, hg.adj_keys w]
    · intro u hu
      exact ⟨hg.vpos u hu, fun v hv => (hg.adj_iff u v).mp hv⟩
    · intro e he
      have helt := hg.edge_lt e he
      have h1 : e.2 ∈ adjGet g.adj_dict e.1 := by
        rw [hg.adj_iff e.1 e.2, min_eq_left helt.le, max_eq_right helt.le]
        exact he
      have h2 : e.1 ∈ adjGet g.adj_dict e.2 := by
        rw [hg.adj_iff e.2 e.1, min_eq_right helt.le, max_eq_left helt.le]
        exact he
      exact ⟨h1, h2⟩

/-- C1: every public mutation operation (clear, add_vertex, add_edge,
discard_vertex, discard_edge), applied to a state satisfying the data-model
invariants, returns (also when it raises) a state that still satisfies
them.  Invariant packages the claimed clauses: every vertex referenced by
an edge is in the vertex set, the adjacency dictionary mirrors the
canonical edge set, edges are stored canonically so no edge has equal
endpoints and each canonical pair occurs at most once (edge_set is a set),
labels exist only for present entities, and vertex identifiers are
strictly positive.  The last two conjuncts record the claimed symmetric
membership chain and the no-self-loop reading in any invariant state. -/
theorem C1_mutations_preserve_invariants (g : SimpGraph) (hg : Invariant g) :
    Invariant (clear g) ∧
    (∀ u lab, Invariant (add_vertex g u lab).2) ∧
    (∀ u v lab, Invariant (add_edge g u v lab).2) ∧
    (∀ u, Invariant (discard_vertex g u).2) ∧
    (∀ u v, Invariant (discard_edge g u v).2) ∧
    (∀ u v : ℤ, (v ∈ adjGet g.adj_dict u ↔ u ∈ adjGet g.adj_dict v) ∧
      (v ∈ adjGet g.adj_dict u ↔ (min u v, max u v) ∈ g.edge_set)) ∧
    (∀ e ∈ g.edge_set, e.1 ≠ e.2) :=
  ⟨invariant_init, fun u lab => invariant_add_vertex hg u lab,
   fun u v lab => invariant_add_edge hg u v lab,
   fun u => invariant_discard_vertex hg u,
   fun u v => invariant_discard_edge hg u v,
   fun u v => hg.adj_symm u v,
   fun e he => by have := hg.edge_lt e he; omega⟩

/-- Witness for C1 at the empty graph. -/
theorem C1_witness :
    Invariant initGraph ∧ (∀ u lab, Invariant (add_vertex initGraph u lab).2) := by
  refine ⟨invariant_init, ?_⟩
  exact (C1_mutations_preserve_invariants initGraph invariant_init).2.1

/-- C2: discard_vertex is a silent no-op on an absent vertex; on a present
vertex it removes the vertex, every incident edge (with its label and both
adjacency entries) and the vertex label, and leaves every other vertex and
non-incident edge, with labels, unchanged (other vertices only lose u from
their adjacency sets). -/
theorem C2_discard_vertex_cascade (g : SimpGraph) (hg : Invariant g) (u : ℤ) :
    (u ∉ g.vertex_set → discard_vertex g u = (none, g)) ∧
    (u ∈ g.vertex_set → ∃ g3, discard_vertex g u = (none, g3) ∧
      u ∉ all_vertices g3 ∧
      (∀ e ∈ all_edges g3, e.1 ≠ u ∧ e.2 ≠ u) ∧
      g3.vertex_label_dict.lookup u = none ∧
      (∀ e ∈ g.edge_set, (e.1 = u ∨ e.2 = u) →
        e ∉ g3.edge_set ∧ g3.edge_label_dict.lookup e = none ∧
        e.2 ∉ adjGet g3.adj_dict e.1 ∧ e.1 ∉ adjGet g3.adj_dict e.2) ∧
      (∀ w ∈ g.vertex_set, w ≠ u → w ∈ g3.vertex_set ∧
        g3.vertex_label_dict.lookup w = g.vertex_label_dict.lookup w ∧
        adjGet g3.adj_dict w = (adjGet g.adj_dict w).erase u) ∧
      (∀ e ∈ g.edge_set, e.1 ≠ u → e.2 ≠ u → e ∈ g3.edge_set ∧
        g3.edge_label_dict.lookup e = g.edge_label_dict.lookup e)) := by
  refine ⟨fun h => discard_vertex_absent h, fun hu => ?_⟩
  obtain ⟨g3, heq, hinv, hvs, hes, hm, hgw, hgu, hvl, helI, helO⟩ :=
    discard_vertex_present_spec hg hu
  refine ⟨g3, heq, ?_, ?_, ?_, ?_, ?_, ?_⟩
  · show u ∉ g3.vertex_set
    rw [hvs]
    simp
  · intro e he
    exact ((hes e).mp he).2
  · rw [hvl]
    exact Finmap.lookup_erase _ _
  · intro e he hco
    refine ⟨fun hc => ?_, helI e hco, ?_, ?_⟩
    · have := (hes e).mp hc
      omega
    · rcases hco with hc | hc
      · rw [hc, hgu]
        simp
      · have h1 : e.1 ≠ u := by
          have := hg.edge_lt e he
          omega
        rw [hgw e.1 h1, hc]
        simp
    · rcases hco with hc | hc
      · have h2 : e.2 ≠ u := by
          have := hg.edge_lt e he
          omega
        rw [hgw e.2 h2, hc]
        simp
      · rw [hc, hgu]
        simp
  · intro w hw hwu
    refine ⟨?_, ?_, hgw w hwu⟩
    · rw [hvs]
      exact Finset.mem_erase.mpr ⟨hwu, hw⟩
    · rw [hvl]
      exact Finmap.lookup_erase_ne hwu
  · intro e he h1 h2
    exact ⟨(hes e).mpr ⟨he, h1, h2⟩, helO e h1 h2⟩

/-- C3: add_edge with equal endpoints always raises and leaves the state
exactly as it was; for a positive endpoint the error is the self-loop
rejection (Python Exception "cannot add loop."), for a non-positive one
the positivity check fires first. -/
theorem C3_self_loop_rejection (g : SimpGraph) (u : ℤ) (lab : Option String) :
    (add_edge g u u lab).2 = g ∧ (add_edge g u u lab).1 ≠ none ∧
    (0 < u → add_edge g u u lab = (some (PyErr.exception "cannot add loop."), g)) := by
  by_cases h0 : u ≤ 0
  · unfold add_edge
    rw [if_pos (Or.inl h0)]
    exact ⟨rfl, by simp, fun h => absurd h (by omega)⟩
  · unfold add_edge
    rw [if_neg (by omega), if_pos rfl]
    exact ⟨rfl, by simp, fun _ => rfl⟩

/-- Witness for C3 at a concrete self-loop call. -/
theorem C3_witness :
    (0:ℤ) < 2 ∧ add_edge initGraph 2 2 none = (some (PyErr.exception "cannot add loop."), initGraph) :=
  ⟨by omega, (C3_self_loop_rejection initGraph 2 none).2.2 (by omega)⟩

lemma invariant_gW : Invariant gW := (invariantB_iff gW).mp (by decide)

/-- Witness for C2: discarding vertex 2 of gW removes it and both its
incident edges. -/
theorem C2_witness :
    ∃ g3, discard_vertex gW 2 = (none, g3) ∧ 2 ∉ all_vertices g3 ∧
      (∀ e ∈ all_edges g3, e.1 ≠ 2 ∧ e.2 ≠ 2) := by
  obtain ⟨g3, h1, h2, h3, _⟩ :=
    (C2_discard_vertex_cascade gW invariant_gW 2).2 (by decide)
  exact ⟨g3, h1, h2, h3⟩

/-- C4: re-adding a present vertex with the label argument omitted leaves
the state (vertex set, adjacency, and any stored label) literally
unchanged; add_vertex with no label is idempotent, and an omitted label
never erases a stored label, also as observed through vertex_label. -/
theorem C4_add_vertex_idempotent_label_preserving (g : SimpGraph) (hg : Invariant g)
    (u : ℤ) :
    (u ∈ g.vertex_set → add_vertex g u none = (none, g)) ∧
    (add_vertex (add_vertex g u none).2 u none).2 = (add_vertex g u none).2 ∧
    (∀ L, g.vertex_label_dict.lookup u = some L →
      (add_vertex g u none).2.vertex_label_dict.lookup u = some L) ∧
    (∀ L, vertex_label g u = Except.ok (some L) →
      vertex_label (add_vertex g u none).2 u = Except.ok (some L)) := by
  have hpresent : u ∈ g.vertex_set → add_vertex g u none = (none, g) := by
    intro hu
    have h0 := hg.vpos u hu
    unfold add_vertex
    rw [if_neg (by omega), if_pos hu]
    rfl
  refine ⟨hpresent, ?_, ?_, ?_⟩
  · by_cases h0 : u ≤ 0
    · have e1 : add_vertex g u none = (some (PyErr.valueError "vertex index must be positive."), g) := by
        unfold add_vertex
        rw [if_pos h0]
      simp only [e1]
    · by_cases hu : u ∈ g.vertex_set
      · simp only [hpresent hu]
      · obtain ⟨g1, heq, hinv1, hvs1, _⟩ := add_vertex_none_spec hg (by omega : (0:ℤ) < u)
        have hu1 : u ∈ g1.vertex_set := by
          rw [hvs1]
          exact Finset.mem_insert_self u _
        have e2 : add_vertex g1 u none = (none, g1) := by
          unfold add_vertex
          rw [if_neg h0, if_pos hu1]
          rfl
        simp only [heq, e2]
  · intro L hL
    have hu : u ∈ g.vertex_set :=
      hg.vlabel_mem u (Finmap.mem_iff.mpr ⟨L, hL⟩)
    simp only [hpresent hu]
    exact hL
  · intro L hL
    unfold vertex_label at hL
    by_cases hu : u ∈ g.vertex_set
    · rw [if_neg (not_not_intro hu)] at hL
      simp only [Except.ok.injEq] at hL
      simp only [hpresent hu]
      unfold vertex_label
      rw [if_neg (not_not_intro hu), hL]
    · rw [if_pos hu] at hL
      simp at hL

/-- Witness for C4 on gW: vertex 3 is present with label b, and re-adding
it without a label keeps the state and the label. -/
theorem C4_witness :
    add_vertex gW 3 none = (none, gW) ∧
    vertex_label (add_vertex gW 3 none).2 3 = Except.ok (some "b") := by
  have h := C4_add_vertex_idempotent_label_preserving gW invariant_gW 3
  exact ⟨h.1 (by decide), h.2.2.2 "b" rfl⟩

/-- C5: for distinct positive endpoints, add_edge is insensitive to the
argument order, succeeds, and yields exactly the canonical sorted pair in
the edge set (every stored edge is sorted, so the reversed pair never
appears); discard_edge and edge_label canonicalize their arguments, so
argument order never matters for them either. -/
theorem C5_edge_canonicalization (g : SimpGraph) (hg : Invariant g) (u v : ℤ)
    (hu : 0 < u) (hv : 0 < v) (hne : u ≠ v) (lab : Option String) :
    add_edge g u v lab = add_edge g v u lab ∧
    (∃ g4, add_edge g u v lab = (none, g4) ∧
      (min u v, max u v) ∈ all_edges g4 ∧
      (∀ e ∈ all_edges g4, e.1 < e.2) ∧
      (max u v, min u v) ∉ all_edges g4) ∧
    (∀ u' v', discard_edge g u' v' = discard_edge g v' u') ∧
    (∀ u' v', edge_label g u' v' = edge_label g v' u') := by
  refine ⟨add_edge_symm g u v lab, ?_,
    fun u' v' => discard_edge_symm g u' v', fun u' v' => edge_label_symm g u' v'⟩
  rcases lt_or_gt_of_ne hne with hlt | hlt
  · obtain ⟨g4, heq, hinv4, _, hes, _⟩ := add_edge_core_spec hg hu hlt lab
    refine ⟨g4, heq, ?_, fun e he => hinv4.edge_lt e he, ?_⟩
    · show (min u v, max u v) ∈ g4.edge_set
      rw [hes, min_eq_left hlt.le, max_eq_right hlt.le]
      exact Finset.mem_insert_self _ _
    · intro hc
      have := hinv4.edge_lt _ hc
      simp only at this
      omega
  · rw [add_edge_symm]
    obtain ⟨g4, heq, hinv4, _, hes, _⟩ := add_edge_core_spec hg hv hlt lab
    refine ⟨g4, heq, ?_, fun e he => hinv4.edge_lt e he, ?_⟩
    · show (min u v, max u v) ∈ g4.edge_set
      rw [hes, min_eq_right hlt.le, max_eq_left hlt.le]
      exact Finset.mem_insert_self _ _
    · intro hc
      have := hinv4.edge_lt _ hc
      simp only at this
      omega

/-- Witness for C5 at distinct positive endpoints 2 and 1 of the empty
graph. -/
theorem C5_witness :
    add_edge initGraph 2 1 none = add_edge initGraph 1 2 none ∧
    ∃ g4, add_edge initGraph 2 1 none = (none, g4) ∧ (1, 2) ∈ all_edges g4 := by
  have h := C5_edge_canonicalization initGraph invariant_init 2 1
    (by omega) (by omega) (by omega) none
  obtain ⟨g4, h1, h2, _⟩ := h.2.1
  refine ⟨h.1, g4, h1, ?_⟩
  have : ((min (2:ℤ) 1, max (2:ℤ) 1) : ℤ × ℤ) = (1, 2) := by decide
  rw [← this]
  exact h2

/-- C7: max_vertex fails with the empty-graph error exactly when the graph
has no vertices; on a non-empty graph it returns the largest identifier
present.  It is a pure query on the state. -/
theorem C7_max_vertex_empty_or_largest (g : SimpGraph) :
    (max_vertex g = Except.error (PyErr.valueError "max() arg is an empty sequence") ↔
      num_vertices g = 0) ∧
    (∀ m, max_vertex g = Except.ok m → m ∈ g.vertex_set ∧ ∀ w ∈ g.vertex_set, w ≤ m) ∧
    (0 < num_vertices g → ∃ m, max_vertex g = Except.ok m) := by
  unfold max_vertex num_vertices
  by_cases h : g.vertex_set.Nonempty
  · rw [dif_pos h]
    refine ⟨⟨fun hc => absurd hc (by simp), fun hc => ?_⟩, ?_, fun _ => ⟨_, rfl⟩⟩
    · exact absurd (Finset.card_eq_zero.mp hc) (Finset.nonempty_iff_ne_empty.mp h)
    · intro m hm
      simp only [Except.ok.injEq] at hm
      rw [← hm]
      exact ⟨Finset.max'_mem _ h, fun w hw => Finset.le_max' _ w hw⟩
  · rw [dif_neg h]
    have hemp : g.vertex_set = ∅ := Finset.not_nonempty_iff_eq_empty.mp h
    refine ⟨⟨fun _ => by rw [hemp]; rfl, fun _ => rfl⟩, ?_, ?_⟩
    · intro m hm
      simp at hm
    · intro hc
      rw [hemp] at hc
      simp at hc

/-- Witness for C7: the largest vertex of gW, which exceeds none of its
vertices. -/
theorem C7_witness :
    max_vertex gW = Except.ok 3 ∧ (3:ℤ) ∈ gW.vertex_set := by
  have h := (C7_max_vertex_empty_or_largest gW).2.1 3 rfl
  exact ⟨rfl, h.1⟩

/-- C9: the discard operations validate nothing: with a non-positive
vertex argument (in any invariant state, where such a vertex or edge
cannot be present) they raise no error and return the state unchanged. -/
theorem C9_discard_no_validation (g : SimpGraph) (hg : Invariant g) (u v : ℤ)
    (hu : u ≤ 0) :
    discard_vertex g u = (none, g) ∧ discard_edge g u v = (none, g) ∧
    discard_edge g v u = (none, g) := by
  have h1 : u ∉ g.vertex_set := fun h => absurd (hg.vpos u h) (by omega)
  have habs : ∀ a b : ℤ, min a b ≤ u → discard_edge g a b = (none, g) := by
    intro a b hab
    apply discard_edge_absent
    intro hmem
    have hm := hg.edge_mem _ hmem
    have hp := hg.vpos _ hm.1
    rw [canon_eq] at hp
    simp only at hp
    omega
  refine ⟨discard_vertex_absent h1, habs u v (by omega), habs v u (by omega)⟩

/-- Witness for C9 at the non-positive identifier 0. -/
theorem C9_witness :
    discard_vertex gW 0 = (none, gW) ∧ discard_edge gW 0 5 = (none, gW) := by
  have h := C9_discard_no_validation gW invariant_gW 0 5 (by omega)
  exact ⟨h.1, h.2.1⟩

lemma dropWhile_cons_false {p : Char → Bool} {a : Char} (l : List Char)
    (h : p a = false) : (a :: l).dropWhile p = a :: l := by
  rw [List.dropWhile_cons, h]
  simp

lemma pyStrip_eq_self {l : List Char} (h1 : isPySpace (l.headD 'x') = false)
    (h2 : isPySpace (l.getLastD 'x') = false) : pyStrip l = l := by
  cases l with
  | nil => rfl
  | cons a m =>
    simp only [List.headD_cons] at h1
    unfold pyStrip
    rw [dropWhile_cons_false _ h1]
    rcases List.eq_nil_or_concat m with rfl | ⟨m', b, rfl⟩
    · simp only [List.reverse_cons, List.reverse_nil, List.nil_append]
      rw [dropWhile_cons_false _ h1]
      rfl
    · simp only [List.concat_eq_append] at h2 ⊢
      have hb : isPySpace b = false := by
        have : (a :: (m' ++ [b])).getLastD 'x' = b := by
          rw [List.getLastD_cons, List.getLastD_concat]
        rwa [this] at h2
      have hrev : (a :: (m' ++ [b])).reverse = b :: (m'.reverse ++ [a]) := by
        simp
      rw [hrev, dropWhile_cons_false _ hb, ← hrev, List.reverse_reverse]

lemma splitChar_of_not_mem {c : Char} : ∀ {l : List Char}, c ∉ l → splitChar c l = [l] := by
  intro l
  induction l with
  | nil => intro _; rfl
  | cons a t ih =>
    intro h
    have ha : ¬a = c := fun hc => h (by rw [hc]; exact List.mem_cons_self c t)
    have ht : c ∉ t := fun hc => h (List.mem_cons_of_mem a hc)
    rw [splitChar, if_neg ha, ih ht]

lemma splitChar_append_sep {c : Char} {l1 : List Char} (h : c ∉ l1) (l2 : List Char) :
    splitChar c (l1 ++ c :: l2) = l1 :: splitChar c l2 := by
  induction l1 with
  | nil =>
    show splitChar c (c :: l2) = [] :: splitChar c l2
    rw [splitChar, if_pos rfl]
  | cons a t ih =>
    have ha : ¬a = c := fun hc => h (by rw [hc]; exact List.mem_cons_self c t)
    have ht : c ∉ t := fun hc => h (List.mem_cons_of_mem a hc)
    show splitChar c (a :: (t ++ c :: l2)) = (a :: t) :: splitChar c l2
    rw [splitChar, if_neg ha, ih ht]

lemma splitChar_joinWith {c : Char} :
    ∀ ls : List (List Char), ls ≠ [] → (∀ l ∈ ls, c ∉ l) →
      splitChar c (joinWith c ls) = ls := by
  intro ls
  induction ls with
  | nil => intro h; exact absurd rfl h
  | cons l ls ih =>
    intro _ hmem
    cases ls with
    | nil =>
      show splitChar c (joinWith c [l]) = [l]
      exact splitChar_of_not_mem (hmem l (List.mem_cons_self l []))
    | cons l2 ls2 =>
      have hjoin : joinWith c (l :: l2 :: ls2) = l ++ c :: joinWith c (l2 :: ls2) := rfl
      rw [hjoin, splitChar_append_sep (hmem l (List.mem_cons_self l _)),
        ih (by simp) (fun x hx => hmem x (List.mem_cons_of_mem l hx))]

lemma natDigitsAux_eq : ∀ (fuel n : ℕ) (acc : List Char), n < fuel →
    natDigitsAux fuel n acc = natDigitsW n ++ acc := by
  intro fuel
  induction fuel with
  | zero => intro n acc h; omega
  | succ f ih =>
    intro n acc h
    rw [natDigitsAux]
    by_cases h10 : n < 10
    · rw [if_pos h10]
      unfold natDigitsW
      rw [dif_pos h10]
      rfl
    · have hdiv : n / 10 < f := by
        have h1 : n / 10 < n := Nat.div_lt_self (by omega) (by omega)
        omega
      rw [if_neg h10, ih (n / 10) _ hdiv]
      conv_rhs => rw [natDigitsW]
      rw [dif_neg h10]
      simp

lemma natDigits_eq (n : ℕ) : natDigits n = natDigitsW n := by
  unfold natDigits
  rw [natDigitsAux_eq _ _ _ (by omega), List.append_nil]

lemma natDigitsW_ne_nil (n : ℕ) : natDigitsW n ≠ [] := by
  unfold natDigitsW
  split <;> simp

lemma digitChar_isDigit : ∀ m, m < 10 → (Nat.digitChar m).isDigit = true := by decide

lemma digitChar_toNat : ∀ m, m < 10 → (Nat.digitChar m).toNat - 48 = m := by decide

lemma natDigitsW_all_digits : ∀ n, ∀ c ∈ natDigitsW n, c.isDigit = true := by
  intro n
  induction n using Nat.strong_induction_on with
  | _ n ih =>
    intro c hc
    unfold natDigitsW at hc
    split at hc
    · next h10 =>
      simp only [List.mem_singleton] at hc
      subst hc
      exact digitChar_isDigit n h10
    · next h10 =>
      rcases List.mem_append.mp hc with h | h
      · exact ih (n / 10) (Nat.div_lt_self (by omega) (by omega)) c h
      · simp only [List.mem_singleton] at h
        subst h
        exact digitChar_isDigit (n % 10) (Nat.mod_lt _ (by omega))

lemma foldl_natDigitsW : ∀ n : ℕ,
    (natDigitsW n).foldl (fun n c => n * 10 + (c.toNat - 48)) 0 = n := by
  intro n
  induction n using Nat.strong_induction_on with
  | _ n ih =>
    unfold natDigitsW
    split
    · next h10 =>
      simp only [List.foldl_cons, List.foldl_nil]
      rw [digitChar_toNat n h10]
      omega
    · next h10 =>
      rw [List.foldl_append, ih (n / 10) (Nat.div_lt_self (by omega) (by omega))]
      simp only [List.foldl_cons, List.foldl_nil]
      rw [digitChar_toNat (n % 10) (Nat.mod_lt _ (by omega))]
      omega

lemma digitsVal_natDigitsW (n : ℕ) : digitsVal (natDigitsW n) = some n := by
  have hcond : natDigitsW n ≠ [] ∧ (natDigitsW n).all Char.isDigit :=
    ⟨natDigitsW_ne_nil n,
     by rw [List.all_eq_true]; exact fun c hc => natDigitsW_all_digits n c hc⟩
  unfold digitsVal
  rw [if_pos hcond, foldl_natDigitsW]

lemma isDigit_not_space {c : Char} (h : c.isDigit = true) : isPySpace c = false := by
  by_contra hcon
  simp only [Bool.not_eq_false] at hcon
  simp only [isPySpace, Bool.or_eq_true, beq_iff_eq] at hcon
  rcases hcon with ((((rfl | rfl) | rfl) | rfl) | rfl) | rfl <;> exact absurd h (by decide)

lemma isDigit_ne_sign {c : Char} (h : c.isDigit = true) :
    ¬c = '-' ∧ ¬c = '+' ∧ ¬c = '\n' ∧ ¬c = ' ' := by
  refine ⟨?_, ?_, ?_, ?_⟩ <;> intro hc <;> rw [hc] at h <;> exact absurd h (by decide)

lemma getLastD_mem_cons' : ∀ (l : List Char) (a d : Char), (a :: l).getLastD d ∈ a :: l := by
  intro l
  induction l with
  | nil => intro a d; simp
  | cons b t ih =>
    intro a d
    rw [List.getLastD_cons]
    exact List.mem_cons_of_mem a (ih b d)

lemma pyStrip_digits {l : List Char} (h : ∀ c ∈ l, c.isDigit = true) : pyStrip l = l := by
  apply pyStrip_eq_self
  · cases l with
    | nil => decide
    | cons a m =>
      rw [List.headD_cons]
      exact isDigit_not_space (h a (List.mem_cons_self a m))
  · cases l with
    | nil => decide
    | cons a m =>
      exact isDigit_not_space (h _ (getLastD_mem_cons' m a 'x'))

lemma pyInt_intRepr {i : ℤ} (h : 0 < i) : pyInt (intRepr i) = Except.ok i := by
  have hrepr : intRepr i = natDigitsW i.toNat := by
    unfold intRepr
    rw [if_neg (by omega), natDigits_eq]
  have hall : ∀ x ∈ natDigitsW i.toNat, x.isDigit = true := natDigitsW_all_digits _
  have hstrip : pyStrip (intRepr i) = natDigitsW i.toNat := by
    rw [hrepr]
    exact pyStrip_digits hall
  obtain ⟨c, cs, hcc⟩ := List.exists_cons_of_ne_nil (natDigitsW_ne_nil i.toNat)
  have hcd : c.isDigit = true := hall c (hcc ▸ List.mem_cons_self c cs)
  have hhead : (natDigitsW i.toNat).headD ' ' = c := by rw [hcc]; rfl
  simp only [pyInt, hstrip, hhead]
  rw [if_neg (isDigit_ne_sign hcd).1, if_neg (isDigit_ne_sign hcd).2.1,
    digitsVal_natDigitsW]
  simp only [Except.ok.injEq]
  omega

lemma splitChar_ne_nil (c : Char) : ∀ l : List Char, splitChar c l ≠ [] := by
  intro l
  induction l with
  | nil => simp [splitChar]
  | cons a t ih =>
    rw [splitChar]
    split
    · simp
    · rcases h : splitChar c t with _ | ⟨x, xs⟩
      · simp
      · simp

/-- Full characterization of one reader-loop iteration, by the first
token of the stripped, space-split line. -/
lemma processLine_spec (g : SimpGraph) (line : List Char) :
    (((splitChar ' ' (pyStrip line)).getD 0 [] = ['n'] →
      ((splitChar ' ' (pyStrip line)).length < 2 →
        processLine g line =
          (some (PyErr.exception ("Unexpected format: " ++ String.mk line)), g)) ∧
      (2 ≤ (splitChar ' ' (pyStrip line)).length →
        processLine g line =
          match pyInt ((splitChar ' ' (pyStrip line)).getD 1 []) with
          | .error e => (some e, g)
          | .ok k => add_vertex g k none))) ∧
    (((splitChar ' ' (pyStrip line)).getD 0 [] = ['e'] →
      ((splitChar ' ' (pyStrip line)).length < 3 →
        processLine g line =
          (some (PyErr.exception ("Unexpected format: " ++ String.mk line)), g)) ∧
      (3 ≤ (splitChar ' ' (pyStrip line)).length →
        processLine g line =
          match pyInt ((splitChar ' ' (pyStrip line)).getD 1 []) with
          | .error e => (some e, g)
          | .ok k1 =>
            match pyInt ((splitChar ' ' (pyStrip line)).getD 2 []) with
            | .error e => (some e, g)
            | .ok k2 => add_edge g k1 k2 none))) ∧
    ((splitChar ' ' (pyStrip line)).getD 0 [] ≠ ['n'] →
      (splitChar ' ' (pyStrip line)).getD 0 [] ≠ ['e'] →
      processLine g line = (none, g)) := by
  have hpos : 0 < (splitChar ' ' (pyStrip line)).length :=
    List.length_pos.mpr (splitChar_ne_nil ' ' (pyStrip line))
  refine ⟨fun hn => ⟨fun hshort => ?_, fun hlong => ?_⟩,
    fun he => ⟨fun hshort => ?_, fun hlong => ?_⟩, fun hn he => ?_⟩
  · have hA : 0 < (splitChar ' ' (pyStrip line)).length ∧
        (splitChar ' ' (pyStrip line)).getD 0 [] = ['n'] := ⟨hpos, hn⟩
    simp only [processLine, if_pos hA, if_pos hshort]
  · have hA : 0 < (splitChar ' ' (pyStrip line)).length ∧
        (splitChar ' ' (pyStrip line)).getD 0 [] = ['n'] := ⟨hpos, hn⟩
    have hE : ¬(0 < (splitChar ' ' (pyStrip line)).length ∧
        (splitChar ' ' (pyStrip line)).getD 0 [] = ['e']) := by
      rintro ⟨_, hc⟩
      rw [hn] at hc
      exact absurd hc (by decide)
    simp only [processLine, if_pos hA, if_neg (show ¬(splitChar ' ' (pyStrip line)).length < 2 by omega)]
    rcases hp : pyInt ((splitChar ' ' (pyStrip line)).getD 1 []) with e | k
    · simp only [hp]
    · simp only [hp]
      rcases hav : add_vertex g k none with ⟨err, g1⟩
      cases err with
      | none => simp only [hav, if_neg hE]
      | some e => simp only [hav]
  · have hN : ¬(0 < (splitChar ' ' (pyStrip line)).length ∧
        (splitChar ' ' (pyStrip line)).getD 0 [] = ['n']) := by
      rintro ⟨_, hc⟩
      rw [he] at hc
      exact absurd hc (by decide)
    have hA : 0 < (splitChar ' ' (pyStrip line)).length ∧
        (splitChar ' ' (pyStrip line)).getD 0 [] = ['e'] := ⟨hpos, he⟩
    simp only [processLine, if_neg hN, if_pos hA, if_pos hshort]
  · have hN : ¬(0 < (splitChar ' ' (pyStrip line)).length ∧
        (splitChar ' ' (pyStrip line)).getD 0 [] = ['n']) := by
      rintro ⟨_, hc⟩
      rw [he] at hc
      exact absurd hc (by decide)
    have hA : 0 < (splitChar ' ' (pyStrip line)).length ∧
        (splitChar ' ' (pyStrip line)).getD 0 [] = ['e'] := ⟨hpos, he⟩
    simp only [processLine, if_neg hN, if_pos hA,
      if_neg (show ¬(splitChar ' ' (pyStrip line)).length < 3 by omega)]
  · have hN : ¬(0 < (splitChar ' ' (pyStrip line)).length ∧
        (splitChar ' ' (pyStrip line)).getD 0 [] = ['n']) := fun hc => hn hc.2
    have hE : ¬(0 < (splitChar ' ' (pyStrip line)).length ∧
        (splitChar ' ' (pyStrip line)).getD 0 [] = ['e']) := fun hc => he hc.2
    simp only [processLine, if_neg hN, if_neg hE]

lemma intRepr_pos {i : ℤ} (h : 0 < i) : intRepr i = natDigitsW i.toNat := by
  unfold intRepr
  rw [if_neg (by omega), natDigits_eq]

lemma space_not_in_digits {l : List Char} (h : ∀ c ∈ l, c.isDigit = true) : ' ' ∉ l :=
  fun hc => absurd (h ' ' hc) (by decide)

lemma newline_not_in_digits {l : List Char} (h : ∀ c ∈ l, c.isDigit = true) : '\n' ∉ l :=
  fun hc => absurd (h '\n' hc) (by decide)

lemma getLastD_digits {l : List Char} {d : Char} (hne : l ≠ [])
    (h : ∀ c ∈ l, c.isDigit = true) : isPySpace (l.getLastD d) = false := by
  obtain ⟨c, cs, rfl⟩ := List.exists_cons_of_ne_nil hne
  exact isDigit_not_space (h _ (getLastD_mem_cons' cs c d))

lemma intRepr_digits {i : ℤ} (h : 0 < i) : ∀ c ∈ intRepr i, c.isDigit = true := by
  rw [intRepr_pos h]
  exact natDigitsW_all_digits _

lemma intRepr_ne_nil {i : ℤ} (h : 0 < i) : intRepr i ≠ [] := by
  rw [intRepr_pos h]
  exact natDigitsW_ne_nil _

lemma getLastD_append_right : ∀ (l1 : List Char) {l2 : List Char}, l2 ≠ [] →
    ∀ d, (l1 ++ l2).getLastD d = l2.getLastD d := by
  intro l1
  induction l1 with
  | nil => intro l2 h d; rfl
  | cons a t ih =>
    intro l2 h d
    rw [List.cons_append, List.getLastD_cons, ih h a]
    obtain ⟨c, cs, rfl⟩ := List.exists_cons_of_ne_nil h
    rw [List.getLastD_cons, List.getLastD_cons]

lemma vline_strip {u : ℤ} (hu : 0 < u) : pyStrip (vline u) = vline u := by
  apply pyStrip_eq_self
  · rfl
  · show isPySpace ((' ' :: intRepr u).getLastD 'n') = false
    rw [List.getLastD_cons]
    exact getLastD_digits (intRepr_ne_nil hu) (intRepr_digits hu)

lemma vline_tokens {u : ℤ} (hu : 0 < u) :
    splitChar ' ' (pyStrip (vline u)) = [['n'], intRepr u] := by
  rw [vline_strip hu]
  show splitChar ' ' (['n'] ++ ' ' :: intRepr u) = _
  rw [splitChar_append_sep (by decide),
    splitChar_of_not_mem (space_not_in_digits (intRepr_digits hu))]

lemma eline_strip {e : ℤ × ℤ} (h1 : 0 < e.1) (h2 : 0 < e.2) :
    pyStrip (eline e) = eline e := by
  apply pyStrip_eq_self
  · rfl
  · show isPySpace ((' ' :: (intRepr e.1 ++ ' ' :: intRepr e.2)).getLastD 'e') = false
    rw [List.getLastD_cons, getLastD_append_right _ (by simp) _, List.getLastD_cons]
    exact getLastD_digits (intRepr_ne_nil h2) (intRepr_digits h2)

lemma eline_tokens {e : ℤ × ℤ} (h1 : 0 < e.1) (h2 : 0 < e.2) :
    splitChar ' ' (pyStrip (eline e)) = [['e'], intRepr e.1, intRepr e.2] := by
  rw [eline_strip h1 h2]
  show splitChar ' ' (['e'] ++ ' ' :: (intRepr e.1 ++ ' ' :: intRepr e.2)) = _
  rw [splitChar_append_sep (by decide),
    splitChar_append_sep (space_not_in_digits (intRepr_digits h1)),
    splitChar_of_not_mem (space_not_in_digits (intRepr_digits h2))]

lemma processLine_vline (g : SimpGraph) {u : ℤ} (hu : 0 < u) :
    processLine g (vline u) = add_vertex g u none := by
  have h := ((processLine_spec g (vline u)).1 (by rw [vline_tokens hu]; rfl)).2
    (by rw [vline_tokens hu]; simp)
  rw [vline_tokens hu] at h
  simp only [List.getD_cons_succ, List.getD_cons_zero, pyInt_intRepr hu] at h
  exact h

lemma processLine_eline (g : SimpGraph) {e : ℤ × ℤ} (h1 : 0 < e.1) (h2 : 0 < e.2) :
    processLine g (eline e) = add_edge g e.1 e.2 none := by
  have h := ((processLine_spec g (eline e)).2.1 (by rw [eline_tokens h1 h2]; rfl)).2
    (by rw [eline_tokens h1 h2]; simp)
  rw [eline_tokens h1 h2] at h
  simp only [List.getD_cons_succ, List.getD_cons_zero, pyInt_intRepr h1,
    pyInt_intRepr h2] at h
  exact h

lemma newline_not_in_vline {u : ℤ} (hu : 0 < u) : '\n' ∉ vline u := by
  intro hc
  simp only [vline, List.mem_cons] at hc
  rcases hc with hc | hc | hc
  · exact absurd hc (by decide)
  · exact absurd hc (by decide)
  · exact newline_not_in_digits (intRepr_digits hu) hc

lemma newline_not_in_eline {e : ℤ × ℤ} (h1 : 0 < e.1) (h2 : 0 < e.2) :
    '\n' ∉ eline e := by
  intro hc
  simp only [eline, List.mem_cons, List.mem_append] at hc
  rcases hc with hc | hc | (hc | hc | hc)
  · exact absurd hc (by decide)
  · exact absurd hc (by decide)
  · exact newline_not_in_digits (intRepr_digits h1) hc
  · exact absurd hc (by decide)
  · exact newline_not_in_digits (intRepr_digits h2) hc

lemma readLines_append (g : SimpGraph) (l1 l2 : List (List Char)) :
    readLines g (l1 ++ l2) =
      match readLines g l1 with
      | (none, g1) => readLines g1 l2
      | (some e, g1) => (some e, g1) := by
  induction l1 generalizing g with
  | nil => rfl
  | cons a t ih =>
    rw [List.cons_append]
    simp only [readLines]
    rcases hp : processLine g a with ⟨err, g1⟩
    cases err with
    | none => simp only; exact ih g1
    | some e => simp only

lemma add_edge_total {g : SimpGraph} (hg : Invariant g) {u v : ℤ}
    (hu : 0 < u) (hlt : u < v) :
    ∃ g4, add_edge g u v none = (none, g4) ∧ Invariant g4 ∧
      g4.vertex_set = insert v (insert u g.vertex_set) ∧
      g4.edge_set = insert (u, v) g.edge_set := by
  obtain ⟨g4, h1, h2, h3, h4, _⟩ := add_edge_core_spec hg hu hlt none
  exact ⟨g4, h1, h2, h3, h4⟩

lemma readLines_vlines : ∀ (l : List ℤ) (g : SimpGraph), Invariant g →
    (∀ u ∈ l, 0 < u) →
    ∃ g1, readLines g (l.map vline) = (none, g1) ∧ Invariant g1 ∧
      g1.vertex_set = g.vertex_set ∪ l.toFinset ∧ g1.edge_set = g.edge_set := by
  intro l
  induction l with
  | nil =>
    intro g hg _
    exact ⟨g, rfl, hg, by simp, rfl⟩
  | cons u us ih =>
    intro g hg hpos
    have hu : 0 < u := hpos u (List.mem_cons_self u us)
    obtain ⟨gA, heqA, hinvA, hvsA, hesA, _⟩ := add_vertex_none_spec hg hu
    obtain ⟨g1, heq1, hinv1, hvs1, hes1⟩ :=
      ih gA hinvA (fun x hx => hpos x (List.mem_cons_of_mem u hx))
    refine ⟨g1, ?_, hinv1, ?_, by rw [hes1, hesA]⟩
    · simp only [List.map_cons, readLines, processLine_vline g hu, heqA]
      exact heq1
    · rw [hvs1, hvsA]
      ext a
      simp only [List.toFinset_cons, Finset.mem_union, Finset.mem_insert]
      tauto

lemma readLines_elines : ∀ (l : List (ℤ × ℤ)) (g : SimpGraph), Invariant g →
    (∀ e ∈ l, 0 < e.1 ∧ e.1 < e.2 ∧ e.1 ∈ g.vertex_set ∧ e.2 ∈ g.vertex_set) →
    ∃ g1, readLines g (l.map eline) = (none, g1) ∧ Invariant g1 ∧
      g1.vertex_set = g.vertex_set ∧ g1.edge_set = g.edge_set ∪ l.toFinset := by
  intro l
  induction l with
  | nil =>
    intro g hg _
    exact ⟨g, rfl, hg, rfl, by simp⟩
  | cons e es ih =>
    intro g hg hprop
    have he := hprop e (List.mem_cons_self e es)
    have he2 : (0:ℤ) < e.2 := by omega
    obtain ⟨gA, heqA, hinvA, hvsA, hesA⟩ := add_edge_total hg he.1 he.2.1
    have hvsA' : gA.vertex_set = g.vertex_set := by
      rw [hvsA, Finset.insert_eq_self.mpr he.2.2.1, Finset.insert_eq_self.mpr he.2.2.2]
    obtain ⟨g1, heq1, hinv1, hvs1, hes1⟩ := ih gA hinvA (by
      intro x hx
      have h := hprop x (List.mem_cons_of_mem e hx)
      rw [hvsA']
      exact h)
    refine ⟨g1, ?_, hinv1, by rw [hvs1, hvsA'], ?_⟩
    · simp only [List.map_cons, readLines, processLine_eline g he.1 he2, heqA]
      exact heq1
    · rw [hes1, hesA]
      ext a
      simp only [List.toFinset_cons, Finset.mem_union, Finset.mem_insert, Prod.mk.eta]
      tauto

/-- C6: writing the vertices of an invariant graph as n lines and its
canonical edges as e lines and reading the text back with the DIMACS
reader succeeds and yields a graph with the same vertex set and the same
canonical edge set (the equality of SimpGraph.__eq__, which ignores
labels), in both orientations. -/
theorem C6_round_trip_text_format (g : SimpGraph) (hg : Invariant g) :
    ∃ gg, SimpGraph.read (writeDIMACS g) (some "DIMACS") = Except.ok gg ∧
      graphEq gg g ∧ graphEq g gg := by
  have hfmt : ¬(some "DIMACS" ≠ some "DIMACS") := by simp
  have hvs_mem : ∀ u ∈ finSortedList (· ≤ ·) g.vertex_set, 0 < u :=
    fun u hu => hg.vpos u ((finSortedList_mem _ _ u).mp hu)
  have hes_mem : ∀ e ∈ finSortedList edgeLE g.edge_set,
      0 < e.1 ∧ e.1 < e.2 ∧ e.1 ∈ g.vertex_set ∧ e.2 ∈ g.vertex_set := by
    intro e he
    have he2 := (finSortedList_mem _ _ e).mp he
    have hm := hg.edge_mem e he2
    exact ⟨hg.vpos _ hm.1, hg.edge_lt e he2, hm.1, hm.2⟩
  by_cases hnil : (finSortedList (· ≤ ·) g.vertex_set).map vline ++
      (finSortedList edgeLE g.edge_set).map eline = []
  · have hv0 : (finSortedList (· ≤ ·) g.vertex_set) = [] :=
      List.map_eq_nil_iff.mp (List.append_eq_nil.mp hnil).1
    have he0 : (finSortedList edgeLE g.edge_set) = [] :=
      List.map_eq_nil_iff.mp (List.append_eq_nil.mp hnil).2
    have hvs0 : g.vertex_set = ∅ := by
      rw [← finSortedList_toFinset (· ≤ ·) g.vertex_set, hv0]
      rfl
    have hes0 : g.edge_set = ∅ := by
      rw [← finSortedList_toFinset edgeLE g.edge_set, he0]
      rfl
    refine ⟨initGraph, ?_, ⟨hvs0.symm, hes0.symm⟩, ⟨hvs0, hes0⟩⟩
    have hw : writeDIMACS g = [] := by
      unfold writeDIMACS
      rw [hnil]
      rfl
    rw [SimpGraph.read, if_neg hfmt, hw]
    rfl
  · have hnomem : ∀ l ∈ (finSortedList (· ≤ ·) g.vertex_set).map vline ++
        (finSortedList edgeLE g.edge_set).map eline, '\n' ∉ l := by
      intro l hl
      rcases List.mem_append.mp hl with h | h
      · rcases List.mem_map.mp h with ⟨u, hu, rfl⟩
        exact newline_not_in_vline (hvs_mem u hu)
      · rcases List.mem_map.mp h with ⟨e, he, rfl⟩
        refine newline_not_in_eline (hes_mem e he).1 ?_
        have h2 := hes_mem e he
        omega
    have hsplit : splitChar '\n' (writeDIMACS g) =
        (finSortedList (· ≤ ·) g.vertex_set).map vline ++
        (finSortedList edgeLE g.edge_set).map eline := by
      unfold writeDIMACS
      exact splitChar_joinWith _ hnil hnomem
    obtain ⟨gA, heqA, hinvA, hvsA, hesA⟩ :=
      readLines_vlines (finSortedList (· ≤ ·) g.vertex_set) initGraph invariant_init hvs_mem
    have hvsA' : gA.vertex_set = g.vertex_set := by
      rw [hvsA]
      show ∅ ∪ _ = _
      rw [Finset.empty_union, finSortedList_toFinset]
    obtain ⟨g1, heq1, hinv1, hvs1, hes1⟩ :=
      readLines_elines (finSortedList edgeLE g.edge_set) gA hinvA (by
        intro e he
        have h := hes_mem e he
        rw [hvsA']
        exact h)
    have hval : readLines initGraph ((finSortedList (· ≤ ·) g.vertex_set).map vline ++
        (finSortedList edgeLE g.edge_set).map eline) = (none, g1) := by
      rw [readLines_append, heqA]
      exact heq1
    refine ⟨g1, ?_, ⟨?_, ?_⟩, ⟨?_, ?_⟩⟩
    · rw [SimpGraph.read, if_neg hfmt, hsplit, hval]
    · show g1.vertex_set = g.vertex_set
      rw [hvs1, hvsA']
    · show g1.edge_set = g.edge_set
      rw [hes1, hesA]
      show ∅ ∪ _ = _
      rw [Finset.empty_union, finSortedList_toFinset]
    · show g.vertex_set = g1.vertex_set
      rw [hvs1, hvsA']
    · show g.edge_set = g1.edge_set
      rw [hes1, hesA]
      show _ = ∅ ∪ _
      rw [Finset.empty_union, finSortedList_toFinset]

/-- Witness for C6: the round trip on the concrete labelled graph gW. -/
theorem C6_witness :
    ∃ gg, SimpGraph.read (writeDIMACS gW) (some "DIMACS") = Except.ok gg ∧ graphEq gg gW := by
  obtain ⟨gg, h1, h2, _⟩ := C6_round_trip_text_format gW invariant_gW
  exact ⟨gg, h1, h2⟩

/-- C8: reader line dispatch.  A line whose first whitespace token is n
parses the second token as an integer and feeds it to add_vertex, with
fewer than two tokens raising the malformed-line error; a first token e
parses the second and third tokens and feeds them to add_edge, with fewer
than three tokens raising the malformed-line error; a line with any other
first token (a p descriptor, a blank line) is silently ignored and leaves
the graph untouched. -/
theorem C8_reader_line_dispatch (g : SimpGraph) (line : List Char) :
    (((splitChar ' ' (pyStrip line)).getD 0 [] = ['n'] →
      ((splitChar ' ' (pyStrip line)).length < 2 →
        processLine g line =
          (some (PyErr.exception ("Unexpected format: " ++ String.mk line)), g)) ∧
      (2 ≤ (splitChar ' ' (pyStrip line)).length →
        processLine g line =
          match pyInt ((splitChar ' ' (pyStrip line)).getD 1 []) with
          | .error e => (some e, g)
          | .ok k => add_vertex g k none))) ∧
    (((splitChar ' ' (pyStrip line)).getD 0 [] = ['e'] →
      ((splitChar ' ' (pyStrip line)).length < 3 →
        processLine g line =
          (some (PyErr.exception ("Unexpected format: " ++ String.mk line)), g)) ∧
      (3 ≤ (splitChar ' ' (pyStrip line)).length →
        processLine g line =
          match pyInt ((splitChar ' ' (pyStrip line)).getD 1 []) with
          | .error e => (some e, g)
          | .ok k1 =>
            match pyInt ((splitChar ' ' (pyStrip line)).getD 2 []) with
            | .error e => (some e, g)
            | .ok k2 => add_edge g k1 k2 none))) ∧
    ((splitChar ' ' (pyStrip line)).getD 0 [] ≠ ['n'] →
      (splitChar ' ' (pyStrip line)).getD 0 [] ≠ ['e'] →
      processLine g line = (none, g)) :=
  processLine_spec g line

/-- Witness for C8 at three concrete lines: a descriptor line is ignored,
a short n line raises the malformed-line error, a well-formed n line adds
its vertex. -/
theorem C8_witness :
    processLine initGraph (String.toList "p 4 2") = (none, initGraph) ∧
    processLine initGraph (String.toList "n") =
      (some (PyErr.exception "Unexpected format: n"), initGraph) ∧
    processLine initGraph (String.toList "n 7") = add_vertex initGraph 7 none := by
  refine ⟨?_, ?_, ?_⟩
  · exact (C8_reader_line_dispatch initGraph _).2.2 (by decide) (by decide)
  · exact (((C8_reader_line_dispatch initGraph _).1 (by decide)).1 (by decide)).trans (by rfl)
  · exact (((C8_reader_line_dispatch initGraph _).1 (by decide)).2 (by decide)).trans (by rfl)

/-- C10 counterexample: an e line with one surplus token whose leading
tokens are the valid integers 1 and 1; the claim promises that read raises
no error on it, but read raises the self-loop rejection. -/
theorem C10_counterexample :
    SimpGraph.read (String.toList "e 1 1 7") (some "DIMACS") =
      Except.error (PyErr.exception "cannot add loop.") := rfl

/-- C10 (amended): the reader tolerates surplus fields in the sense that
they are never themselves rejected and never affect the outcome: an n line
with more than two tokens whose second token parses to k behaves exactly
as add_vertex of k, and an e line with more than three tokens whose second
and third tokens parse behaves exactly as add_edge of them — which may
itself raise, exactly as it would without the surplus tokens. -/
theorem C10_surplus_fields_ignored (g : SimpGraph) (line : List Char) :
    ((splitChar ' ' (pyStrip line)).getD 0 [] = ['n'] →
      2 < (splitChar ' ' (pyStrip line)).length →
      ∀ k, pyInt ((splitChar ' ' (pyStrip line)).getD 1 []) = Except.ok k →
        processLine g line = add_vertex g k none) ∧
    ((splitChar ' ' (pyStrip line)).getD 0 [] = ['e'] →
      3 < (splitChar ' ' (pyStrip line)).length →
      ∀ k1 k2, pyInt ((splitChar ' ' (pyStrip line)).getD 1 []) = Except.ok k1 →
        pyInt ((splitChar ' ' (pyStrip line)).getD 2 []) = Except.ok k2 →
        processLine g line = add_edge g k1 k2 none) := by
  constructor
  · intro hn _ k hk
    have h := ((processLine_spec g line).1 hn).2 (by omega)
    simp only [hk] at h
    exact h
  · intro he _ k1 k2 h1 h2
    have h := ((processLine_spec g line).2.1 he).2 (by omega)
    simp only [h1, h2] at h
    exact h

/-- Witness for C10 at concrete surplus-token lines. -/
theorem C10_witness :
    processLine initGraph (String.toList "n 5 9") = add_vertex initGraph 5 none ∧
    processLine initGraph (String.toList "e 1 2 0 0") = add_edge initGraph 1 2 none := by
  constructor
  · exact (C10_surplus_fields_ignored initGraph _).1 (by decide) (by decide) 5 rfl
  · exact (C10_surplus_fields_ignored initGraph _).2 (by decide) (by decide) 1 2 rfl rfl
